import Mathlib

/-!
Verification of the SIQ package ingestion pipeline (`SiqService.parseSiq` and its
helpers) against its natural-language specification.

The TypeScript source is shallowly embedded: strings are Lean `String`s,
JavaScript `Map`s are association lists with in-place overwrite (matching the
insertion-order semantics of `Map.set`/`Map.get`/`Map.keys`), `Set<string>` is an
insertion-ordered duplicate-free list, and zip archives are lists of entries.
JavaScript platform built-ins (`trim`, `toLowerCase`, `normalize`,
`encodeURIComponent`, `decodeURIComponent`, `parseInt`) are modelled on the
ASCII fragment: Unicode NFC/NFD normalization is the identity there, percent
escapes denote code points below 128, and `toLowerCase` maps `A`-`Z` only.
All concrete inputs used in theorems stay inside this fragment.
`Math.random().toString(36).substr(2, 5)` suffixes are modelled by an oracle
`Nat → String` consumed one value per question, and the asynchronous zip reads
are modelled as pure lookups (the pipeline awaits each in sequence).
-/

namespace SIGame

/-- ASCII whitespace matched by JavaScript `trim` and the regex `\s` on the
ASCII fragment modelled here. -/
def isWs (c : Char) : Bool :=
  c == ' ' || c == '\t' || c == '\n' || c == '\r' || c == Char.ofNat 11 || c == Char.ofNat 12

/-- JavaScript `String.prototype.trim` on char lists. -/
def jsTrimL (l : List Char) : List Char :=
  ((l.dropWhile isWs).reverse.dropWhile isWs).reverse

/-- JavaScript `String.prototype.trim`. -/
def jsTrim (s : String) : String := ⟨jsTrimL s.data⟩

/-- JavaScript `toLowerCase` on the ASCII fragment (`Char.toLower` lowers `A`-`Z`). -/
def lowerL (l : List Char) : List Char := l.map Char.toLower

/-- Worker of the whitespace collapse: the flag records whether the previous
character was whitespace (so a run emits one space at its first character). -/
def collapseAux : Bool → List Char → List Char
  | _, [] => []
  | prevWs, c :: rest =>
    if isWs c then
      if prevWs then collapseAux true rest else ' ' :: collapseAux true rest
    else c :: collapseAux false rest

/-- `replace(/\s+/g, ' ')`: collapse every run of whitespace to one space. -/
def collapseWsL (l : List Char) : List Char := collapseAux false l

/-- Unicode NFC normalization, modelled as the identity on the ASCII fragment. -/
def nfcStr (s : String) : String := s

/-- Unicode NFD normalization, modelled as the identity on the ASCII fragment. -/
def nfdStr (s : String) : String := s

/-- `normalizeSearch` from `SiqService.parseSiq`:
`s.trim().toLowerCase().normalize('NFC').replace(/\s+/g, ' ')`, with `''` for a
falsy input. -/
def normalizeSearch (s : String) : String :=
  if s = "" then "" else ⟨collapseWsL (nfcStr ⟨lowerL (jsTrimL s.data)⟩).data⟩

/-- Separator class of the split regex `[/\\]`. -/
def isSlash (c : Char) : Bool := c == '/' || c == '\\'

/-- Last segment of a split: `l.split(sep).pop()`. -/
def lastSeg (sep : Char → Bool) (l : List Char) : List Char :=
  l.foldl (fun acc c => if sep c then [] else acc ++ [c]) []

/-- `s.split(/[/\\]/).pop() || fallback` (the popped segment is falsy exactly
when it is empty). -/
def basenameOr (s : String) (fallback : String) : String :=
  let b := lastSeg isSlash s.data
  if b = [] then fallback else ⟨b⟩

/-- `filename.replace(/^@/, '')`. -/
def stripLeadingAt (s : String) : String :=
  match s.data with
  | c :: rest => if c = '@' then ⟨rest⟩ else s
  | [] => s

/-- One character of `replace(/\+/g, ' ')`. -/
def psChar (c : Char) : Char := if c == '+' then ' ' else c

/-- One character of `replace(/ /g, '+')`. -/
def spChar (c : Char) : Char := if c == ' ' then '+' else c

/-- `replace(/\+/g, ' ')`. -/
def subPlusToSpace (s : String) : String := ⟨s.data.map psChar⟩

/-- `replace(/ /g, '+')`. -/
def subSpaceToPlus (s : String) : String := ⟨s.data.map spChar⟩

/-- One left-to-right pass of `replace(/&amp;/g, '&')`. -/
def replaceAmpL : List Char → List Char
  | '&' :: 'a' :: 'm' :: 'p' :: ';' :: rest => '&' :: replaceAmpL rest
  | c :: rest => c :: replaceAmpL rest
  | [] => []

/-- One left-to-right pass of `replace(/&quot;/g, '"')`. -/
def replaceQuotL : List Char → List Char
  | '&' :: 'q' :: 'u' :: 'o' :: 't' :: ';' :: rest => '"' :: replaceQuotL rest
  | c :: rest => c :: replaceQuotL rest
  | [] => []

/-- `.replace(/&amp;/g, '&').replace(/&quot;/g, '"')` from the candidate build. -/
def entityDecode (s : String) : String := ⟨replaceQuotL (replaceAmpL s.data)⟩

/-- Value of a hexadecimal digit. -/
def hexVal (c : Char) : Option Nat :=
  if '0' ≤ c ∧ c ≤ '9' then some (c.toNat - 48)
  else if 'a' ≤ c ∧ c ≤ 'f' then some (c.toNat - 87)
  else if 'A' ≤ c ∧ c ≤ 'F' then some (c.toNat - 55)
  else none

/-- Decoding of one percent escape `%hg` given the decode of the remainder. -/
def decTriple (h g : Char) (rec : Option (List Char)) : Option (List Char) :=
  match hexVal h, hexVal g with
  | some a, some b =>
    if 16 * a + b < 128 then rec.map (fun r => Char.ofNat (16 * a + b) :: r) else none
  | _, _ => none

/-- `decodeURIComponent` on the ASCII fragment: every percent escape must carry
two hex digits denoting a code point below 128; anything else throws, modelled
as `none`. -/
def decPercentL : List Char → Option (List Char)
  | [] => some []
  | c :: rest =>
    if c = '%' then
      match rest with
      | h :: g :: rest2 => decTriple h g (decPercentL rest2)
      | _ => none
    else (decPercentL rest).map (fun r => c :: r)

/-- `decodeURIComponent` (ASCII fragment), `none` modelling a thrown `URIError`. -/
def decPercent (s : String) : Option String := (decPercentL s.data).map (⟨·⟩)

/-- Characters `encodeURIComponent` leaves unescaped. -/
def isUnreservedJS (c : Char) : Bool :=
  c.isAlpha || c.isDigit || c == '-' || c == '_' || c == '.' || c == '!' ||
  c == '~' || c == '*' || c == Char.ofNat 39 || c == '(' || c == ')'

/-- Uppercase hexadecimal digit. -/
def hexDigitChar (n : Nat) : Char :=
  if n < 10 then Char.ofNat (48 + n) else Char.ofNat (55 + n)

/-- Percent escape of one character (ASCII fragment: one byte). -/
def pctChar (c : Char) : List Char :=
  ['%', hexDigitChar (c.toNat % 256 / 16), hexDigitChar (c.toNat % 256 % 16)]

/-- `encodeURIComponent(path).replace(/%2F/g, '/')` as used when indexing
archive entries, realised per character. -/
def encSlashL (l : List Char) : List Char :=
  (l.map (fun c =>
    if c == '/' then ['/']
    else if isUnreservedJS c then [c]
    else pctChar c)).flatten

/-- `encodeURIComponent(cleanName).replace(/%2F/g, '/').replace(/\(/g, '%28').replace(/\)/g, '%29')`
as used when building reference candidates, realised per character. -/
def encFullL (l : List Char) : List Char :=
  (l.map (fun c =>
    if c == '(' then ['%', '2', '8']
    else if c == ')' then ['%', '2', '9']
    else if c == '/' then ['/']
    else if isUnreservedJS c then [c]
    else pctChar c)).flatten

/-- `a.includes(b)` for strings: `b` occurs as a contiguous substring of `a`. -/
def hasSubL (needle : List Char) : List Char → Bool
  | [] => needle.isEmpty
  | c :: rest => needle.isPrefixOf (c :: rest) || hasSubL needle rest

/-- `a.includes(b)`. -/
def jsIncludes (a b : String) : Bool := hasSubL b.data a.data

/-- `Map.set`: overwrite in place (JavaScript keeps the original insertion
position of an overwritten key) or append a fresh key. -/
def alSet {α : Type} : List (String × α) → String → α → List (String × α)
  | [], k, v => [(k, v)]
  | (k0, v0) :: rest, k, v =>
    if k0 = k then (k, v) :: rest else (k0, v0) :: alSet rest k v

/-- `Map.get`, `none` for a missing key. -/
def alGet {α : Type} : List (String × α) → String → Option α
  | [], _ => none
  | (k0, v0) :: rest, k => if k0 = k then some v0 else alGet rest k

/-- `Array.from(map.keys())` in insertion order. -/
def alKeys {α : Type} (m : List (String × α)) : List String := m.map Prod.fst

/-- `Set.add`: append unless already present (JavaScript sets iterate in
first-insertion order). -/
def setAdd (l : List String) (s : String) : List String :=
  if s ∈ l then l else l ++ [s]

/-- One entry of the loaded zip archive (JSZip): canonical path, directory
flag, raw bytes abstracted as a string, and the blob's declared content type. -/
structure ZipEntry where
  path : String
  isDir : Bool
  content : String
  blobType : String
deriving DecidableEq, Repr

/-- The loaded archive: `contents.files` in insertion order. -/
abbrev ZipArchive := List ZipEntry

/-- Look up a readable (non-directory) entry by its exact path, as
`contents.file(path)` does. -/
def entryAt (ar : ZipArchive) (p : String) : Option ZipEntry :=
  ar.find? (fun e => e.path == p && !e.isDir)

/-- The two lookup tables built once per parse: normalized full path →
canonical path, and normalized basename (with `+`/space variants) →
canonical path. -/
structure ZipIndex where
  pathMap : List (String × String)
  baseMap : List (String × String)

/-- Path-index insertion under the entry's normalized full path:
`zipFileMap.set(normPath, path)`. -/
def pmAdd1 (pm : List (String × String)) (e : ZipEntry) : List (String × String) :=
  alSet pm (normalizeSearch e.path) e.path

/-- Path-index insertion of the percent-decoded variant when decoding succeeds
and the variant differs (`try { const decoded = ...; if (decoded !== normPath) ... }`). -/
def pmAdd2 (pm : List (String × String)) (e : ZipEntry) : List (String × String) :=
  match decPercent e.path with
  | some d =>
    if normalizeSearch d ≠ normalizeSearch e.path then alSet pm (normalizeSearch d) e.path
    else pm
  | none => pm

/-- Path-index insertion of the percent-re-encoded variant when it differs. -/
def pmAdd3 (pm : List (String × String)) (e : ZipEntry) : List (String × String) :=
  if normalizeSearch ⟨encSlashL e.path.data⟩ ≠ normalizeSearch e.path then
    alSet pm (normalizeSearch ⟨encSlashL e.path.data⟩) e.path
  else pm

/-- Basename-index insertions: the normalized basename and its `+`↔` `
substitutions, all mapping to the entry's canonical path. -/
def bmAdd (bm : List (String × String)) (e : ZipEntry) : List (String × String) :=
  let nb := normalizeSearch (basenameOr e.path e.path)
  alSet (alSet (alSet bm nb e.path) (subPlusToSpace nb) e.path) (subSpaceToPlus nb) e.path

/-- Indexing of one archive entry, from the `Object.keys(contents.files).forEach`
body of `SiqService.parseSiq`: skip directories; insert the normalized path, a
percent-decoded and a percent-re-encoded variant when they differ; insert the
normalized basename and its `+`↔` ` substitutions. -/
def indexEntry (acc : ZipIndex) (e : ZipEntry) : ZipIndex :=
  if e.isDir then acc
  else ⟨pmAdd3 (pmAdd2 (pmAdd1 acc.pathMap e) e) e, bmAdd acc.baseMap e⟩

/-- The per-parse index build over all archive entries. -/
def buildIndex (ar : ZipArchive) : ZipIndex := ar.foldl indexEntry ⟨[], []⟩

/-- `filename.split('.').pop()?.toLowerCase()`. -/
def extOf (filename : String) : String :=
  ⟨lowerL (lastSeg (fun c => c == '.') filename.data)⟩

/-- `getMimeType` from `SiqService.parseSiq`: keep a meaningful declared type,
else infer from the extension, else fall back generically. -/
def getMimeType (filename blobType : String) : String :=
  if blobType ≠ "" ∧ blobType ≠ "application/octet-stream" then blobType else
  match extOf filename with
  | "png" => "image/png"
  | "jpg" => "image/jpeg"
  | "jpeg" => "image/jpeg"
  | "gif" => "image/gif"
  | "webp" => "image/webp"
  | "mp3" => "audio/mpeg"
  | "wav" => "audio/wav"
  | "ogg" => "audio/ogg"
  | "mp4" => "video/mp4"
  | "webm" => "video/webm"
  | "mov" => "video/quicktime"
  | _ => if blobType ≠ "" then blobType else "application/octet-stream"

/-- The asset kind passed to `extractFile` (`'Images' | 'Audio' | 'Video'`). -/
inductive MediaKind
  | images
  | audio
  | video
deriving DecidableEq, Repr

/-- The string name of a kind. -/
def kindName : MediaKind → String
  | .images => "Images"
  | .audio => "Audio"
  | .video => "Video"

/-- The fixed prefix chain crossed with every candidate:
`['', `${type}/`, 'Images/', 'Audio/', 'Video/', 'Texts/', `${type.toLowerCase()}/`]`. -/
def prefixesFor (k : MediaKind) : List String :=
  ["", kindName k ++ "/", "Images/", "Audio/", "Video/", "Texts/",
   (⟨lowerL (kindName k).data⟩ : String) ++ "/"]

/-- The resolved `File`: name taken from the reference's basename, bytes and
mime type from the matched entry. -/
structure RFile where
  name : String
  content : String
  mime : String
deriving DecidableEq, Repr

/-- Building the returned `File` from a matched canonical path; `none` models a
thrown read error swallowed by the surrounding `try`/`catch`. -/
def mkRFile (ar : ZipArchive) (actualPath baseName : String) : Option RFile :=
  (entryAt ar actualPath).map (fun e => ⟨baseName, e.content, getMimeType actualPath e.blobType⟩)

/-- `try { candidates.add(decodeURIComponent(...)) } catch (e) { }`: add the
decoded value when decoding does not throw. -/
def setAddOpt (l : List String) (o : Option String) : List String :=
  match o with
  | some d => setAdd l d
  | none => l

/-- The ordered candidate set built from a reference in `extractFile`: raw,
leading-`@`-stripped, trimmed, basename, NFC, NFD, percent-decoded (of the
clean name and the basename, skipped on a decode error), percent-re-encoded,
`+`↔` ` substituted, and HTML-entity-decoded variants, in insertion order. -/
def candidatesOf (filename : String) : List String :=
  let rawName := stripLeadingAt filename
  let cleanName : String := jsTrim rawName
  let baseName := basenameOr cleanName cleanName
  setAdd
    (setAdd
      (setAdd
        (setAdd
          (setAddOpt
            (setAddOpt
              (setAdd
                (setAdd (setAdd (setAdd (setAdd [] cleanName) baseName) rawName)
                  (nfcStr cleanName))
                (nfdStr cleanName))
              (decPercent cleanName))
            (decPercent baseName))
          ⟨encFullL cleanName.data⟩)
        (subPlusToSpace cleanName))
      (subSpaceToPlus cleanName))
    (entityDecode cleanName)

/-- Stage 3 of `extractFile`: probe the path index with every prefix crossed
with every candidate, first hit wins; a hit must still exist in
`contents.files`. -/
def stage1Find (ar : ZipArchive) (idx : ZipIndex) (k : MediaKind) (cands : List String) :
    Option String :=
  (prefixesFor k).findSome? (fun pf =>
    cands.findSome? (fun cand =>
      match alGet idx.pathMap (normalizeSearch (pf ++ cand)) with
      | some p => if (entryAt ar p).isSome then some p else none
      | none => none))

/-- Stage 4 of `extractFile`: probe the basename index with each candidate's
own basename. -/
def stage2Find (idx : ZipIndex) (cands : List String) : Option String :=
  cands.findSome? (fun cand => alGet idx.baseMap (normalizeSearch (basenameOr cand cand)))

/-- Stage 5 of `extractFile`: scan all indexed basenames for substring
containment in either direction and take the first match. -/
def stage3Find (idx : ZipIndex) (targetBase : String) : Option String :=
  match (alKeys idx.baseMap).find? (fun k =>
      jsIncludes k targetBase || jsIncludes targetBase k) with
  | some k => alGet idx.baseMap k
  | none => none

/-- `extractFile` from `SiqService.parseSiq`: the full ordered fallback chain
over the pre-built index, never throwing (`none` models a swallowed failure or
a genuine miss). -/
def extractFile (ar : ZipArchive) (idx : ZipIndex) (filename : String) (k : MediaKind) :
    Option RFile :=
  if filename = "" then none else
  let rawName := stripLeadingAt filename
  let cleanName : String := jsTrim rawName
  let baseName := basenameOr cleanName cleanName
  let cands := candidatesOf filename
  match stage1Find ar idx k cands with
  | some p => mkRFile ar p baseName
  | none =>
    match stage2Find idx cands with
    | some p => mkRFile ar p baseName
    | none =>
      let targetBase := normalizeSearch baseName
      if targetBase.length > 5 then
        match stage3Find idx targetBase with
        | some p => mkRFile ar p baseName
        | none => none
      else none

/-- `content.startsWith('@')`. -/
def startsWithAt (s : String) : Bool :=
  match s.data with
  | '@' :: _ => true
  | _ => false

/-- `${x}` interpolation and `String(x)` of a possibly-undefined string. -/
def jsStr (o : Option String) : String := o.getD "undefined"

/-- JavaScript `a || b` on possibly-undefined strings (a string is falsy
exactly when empty). -/
def jsOr (a b : Option String) : Option String :=
  match a with
  | some s => if s ≠ "" then some s else b
  | none => b

/-- `x || d` for a defaulted string such as `item['@_type'] || 'text'`. -/
def jsStrOr (o : Option String) (d : String) : String :=
  match o with
  | some s => if s ≠ "" then s else d
  | none => d

/-- Numeric value of a digit run. -/
def digitsVal (l : List Char) : Nat :=
  l.foldl (fun acc c => acc * 10 + (c.toNat - 48)) 0

/-- `parseInt(s, 10)`: skip leading whitespace, optional sign, then the longest
digit run; `none` models `NaN`. -/
def parseIntJS (s : String) : Option Int :=
  let l := s.data.dropWhile isWs
  let signed : Bool × List Char :=
    match l with
    | '-' :: rest => (true, rest)
    | '+' :: rest => (false, rest)
    | _ => (false, l)
  let ds := signed.2.takeWhile Char.isDigit
  if ds = [] then none
  else some (if signed.1 then -(digitsVal ds : Int) else (digitsVal ds : Int))

/-- A modern `<item>` node: its `@_type` attribute and its `getText` value. -/
structure SiqItem where
  itemType : Option String
  text : String
deriving DecidableEq, Repr

/-- A legacy `<atom>` node: its `@_type` attribute and its `getText` value. -/
structure SiqAtom where
  atomType : Option String
  text : String
deriving DecidableEq, Repr

/-- A `<param>` node: `@_name`, `@_type`, its `getText` value, its `item`
children (absent vs present) and its directly nested `param` children. -/
inductive SiqParam where
  | mk (name : Option String) (ptype : Option String) (text : String)
      (items : Option (List SiqItem)) (children : Option (List SiqParam))

/-- The `@_name` attribute of a param. -/
def SiqParam.name : SiqParam → Option String
  | .mk n _ _ _ _ => n

/-- The `@_type` attribute of a param. -/
def SiqParam.ptype : SiqParam → Option String
  | .mk _ t _ _ _ => t

/-- The `getText` value of a param. -/
def SiqParam.text : SiqParam → String
  | .mk _ _ s _ _ => s

/-- The `item` children of a param, `none` when the property is absent. -/
def SiqParam.items : SiqParam → Option (List SiqItem)
  | .mk _ _ _ i _ => i

/-- The directly nested `param` children of a param, `none` when absent. -/
def SiqParam.children : SiqParam → Option (List SiqParam)
  | .mk _ _ _ _ c => c

/-- A parsed child element together with its JavaScript truthiness (the parser
turns `<price>0</price>` into the falsy number `0`) and its `getText` value. -/
structure SiqVal where
  truthy : Bool
  text : String
deriving DecidableEq, Repr

/-- A `<question>` node, restricted to the fields the ingestion pipeline
reads: the accepted price spellings, the legacy `scenario` atoms, the
right-answer texts (`getText` of each `right.answer`), and the modern `params`
collection. The special-type classification fields are omitted here; no
verified claim depends on them. -/
structure SiqQuestion where
  priceAttr : Option String
  costAttr : Option String
  valueAttr : Option String
  priceAttrCap : Option String
  priceElem : Option SiqVal
  costElem : Option SiqVal
  valueElem : Option SiqVal
  scenario : Option (List SiqAtom)
  right : List String
  params : Option (List SiqParam)

/-- A `<theme>` node: its `@_name` and its questions in document order. -/
structure SiqTheme where
  name : String
  questions : List SiqQuestion

/-- A `<round>` node: its `@_name`, its `@_type` attribute (the explicit final
marker) and its themes in document order. -/
structure SiqRound where
  name : String
  rtype : Option String
  themes : List SiqTheme

/-- The parsed `content.xml` document: rounds in document order. -/
structure SiqPackage where
  rounds : List SiqRound

/-- Truthiness of an optional child element. -/
def elemTruthy : Option SiqVal → Bool
  | some v => v.truthy
  | none => false

/-- `getText` of an optional child element. -/
def svText : Option SiqVal → String
  | some v => v.text
  | none => ""

/-- The child-element fallback of the price resolution:
`if (q.price) ... else if (q.cost) ... else if (q.value) ...`. -/
def childPriceValue (q : SiqQuestion) : Option String :=
  if elemTruthy q.priceElem then some (svText q.priceElem)
  else if elemTruthy q.costElem then some (svText q.costElem)
  else if elemTruthy q.valueElem then some (svText q.valueElem)
  else none

/-- The full score resolution of `processRound`:
`q['@_price'] || q['@_cost'] || q['@_value'] || q['@_Price']`, falling back to
the child elements only when that chain is `undefined`, then
`parseInt(String(priceValue), 10) || 0`. -/
def resolveScore (q : SiqQuestion) : Int :=
  let pv := jsOr q.priceAttr (jsOr q.costAttr (jsOr q.valueAttr q.priceAttrCap))
  let pv := match pv with
    | none => childPriceValue q
    | some s => some s
  match pv with
  | some s => (parseIntJS s).getD 0
  | none => (parseIntJS "undefined").getD 0

/-- One extracted content item: its declared kind (defaulted to `text`) and raw
value. -/
structure CItem where
  ctype : String
  text : String
deriving DecidableEq, Repr

/-- `extractContentItems` from `SiqService`: probe the modern `params` shape
for an entry named exactly as the slot; fall back to the legacy
`scenario`/`atom` shape for the `question` slot only; otherwise the empty
list. -/
def extractContentItems (q : SiqQuestion) (target : String) : List CItem :=
  let fallbackStep : List CItem :=
    if target = "question" then
      match q.scenario with
      | some atoms => atoms.map (fun a => ⟨jsStrOr a.atomType "text", a.text⟩)
      | none => []
    else []
  match q.params with
  | some ps =>
    match ps.find? (fun p => p.name == some target) with
    | some p =>
      match p.items with
      | some its => its.map (fun it => ⟨jsStrOr it.itemType "text", it.text⟩)
      | none => fallbackStep
    | none => fallbackStep
  | none => fallbackStep

/-- The question types the zip translator produces. -/
inductive QType
  | text
  | audio
  | video
  | select
deriving DecidableEq, Repr

/-- The typed payload reduced from a content-item list. -/
structure ContentData where
  ctype : QType
  text : Option String
  image : Option RFile
  audio : Option RFile
  video : Option RFile
deriving DecidableEq, Repr

/-- The running state of the `parseContentItems` loop. -/
structure PState where
  ctype : QType
  parts : List String
  image : Option RFile
  audio : Option RFile
  video : Option RFile
deriving DecidableEq, Repr

/-- One iteration of the `parseContentItems` loop: accumulate non-`@` text,
resolve image/audio/video references (each assignment overwrites the slot),
and infer the overall type. -/
def pciStep (resolve : String → MediaKind → Option RFile) (st : PState) (item : CItem) :
    PState :=
  if item.ctype = "text" ∨ item.ctype = "say" then
    if item.text ≠ "" ∧ ¬startsWithAt item.text then
      { st with parts := st.parts ++ [item.text] }
    else st
  else if item.ctype = "image" then
    if item.text ≠ "" then { st with image := resolve item.text .images } else st
  else if item.ctype = "voice" ∨ item.ctype = "audio" then
    if item.text ≠ "" then
      { st with audio := resolve item.text .audio,
                ctype := if st.ctype = .text then .audio else st.ctype }
    else st
  else if item.ctype = "video" then
    if item.text ≠ "" then { st with video := resolve item.text .video, ctype := .video }
    else st
  else st

/-- `parseContentItems` from `SiqService`: reduce an ordered item list to one
typed payload; the joined text is trimmed and `''` becomes absent. -/
def parseContentItems (resolve : String → MediaKind → Option RFile) (items : List CItem) :
    ContentData :=
  let st := items.foldl (pciStep resolve) ⟨.text, [], none, none, none⟩
  let t := jsTrim (String.intercalate "\n" st.parts)
  ⟨st.ctype, if t ≠ "" then some t else none, st.image, st.audio, st.video⟩

/-- One `"{optionKey}: {optionText}"` string of the select-option expansion:
the text is the param's own `getText`, or the first nested item's when that is
falsy. -/
def optionString (opt : SiqParam) : String :=
  let t := opt.text
  let t :=
    if t = "" then
      match opt.items with
      | some (i :: _) => i.text
      | some [] => t
      | none => t
    else t
  jsStr opt.name ++ ": " ++ t

/-- The select-type resolution of `processRound`: an `answerType` param whose
text is `select` forces the final type; a grouped `answerOptions` param
expands its nested params into option strings. -/
def selectResolve (q : SiqQuestion) (mediaType : QType) : QType × List String :=
  match q.params with
  | none => (mediaType, [])
  | some ps =>
    match ps.find? (fun p => p.name == some "answerType") with
    | some tp =>
      if tp.text = "select" then
        let opts :=
          match ps.find? (fun p => p.name == some "answerOptions" && p.ptype == some "group") with
          | some g =>
            match g.children with
            | some cs => cs.map optionString
            | none => []
          | none => []
        (.select, opts)
      else (mediaType, [])
    | none => (mediaType, [])

/-- Characters the id keeps: the complement of `[^a-zA-Z0-9_-]`. -/
def isIdChar (c : Char) : Bool := c.isAlpha || c.isDigit || c == '_' || c == '-'

/-- `qId.replace(/[^a-zA-Z0-9_-]/g, '')`. -/
def filterIdChars (s : String) : String := ⟨s.data.filter isIdChar⟩

/-- The emitted question, restricted to the fields the ingestion pipeline
fills from the package (media blobs stand in for the object URLs made from
them). -/
structure Question where
  id : String
  round : String
  category : String
  score : Int
  qtype : QType
  questionText : Option String
  answer : String
  answerOptions : Option (List String)
  questionImage : Option RFile
  questionAudio : Option RFile
  questionVideo : Option RFile
  answerImage : Option RFile
  answerAudio : Option RFile
  answerVideo : Option RFile
deriving DecidableEq, Repr

/-- The per-question body of the `processRound` loop: resolve the score, build
both content payloads, merge the legacy right answer with the answer-slot
text, resolve select options, generate and clean the id, and collect the
file-storage slots. -/
def mkQuestion (resolve : String → MediaKind → Option RFile)
    (roundName category : String) (q : SiqQuestion) (suffix : String) :
    Question × List (String × RFile) :=
  let price := resolveScore q
  let questionData := parseContentItems resolve (extractContentItems q "question")
  let answerData := parseContentItems resolve (extractContentItems q "answer")
  let answerText0 :=
    match q.right with
    | a :: _ => a
    | [] => ""
  let answerText :=
    match answerData.text with
    | some t => if answerText0 ≠ "" then answerText0 ++ " (" ++ t ++ ")" else t
    | none => answerText0
  let sel := selectResolve q questionData.ctype
  let qId := roundName ++ "_" ++ category ++ "_" ++ toString price ++ "_" ++ suffix
  let cleanId := filterIdChars qId
  let storage : List (String × RFile) :=
    (match questionData.image with | some f => [("questionImage", f)] | none => []) ++
    (match questionData.audio with | some f => [("questionAudio", f)] | none => []) ++
    (match questionData.video with | some f => [("questionVideo", f)] | none => []) ++
    (match answerData.image with | some f => [("answerImage", f)] | none => []) ++
    (match answerData.audio with | some f => [("answerAudio", f)] | none => []) ++
    (match answerData.video with | some f => [("answerVideo", f)] | none => []) ++
    (match questionData.audio with | some f => [("audio", f)] | none => []) ++
    (match questionData.video with | some f => [("video", f)] | none => [])
  (⟨cleanId, roundName, category, price, sel.1, questionData.text, answerText,
    (if sel.2.length > 0 then some sel.2 else none),
    questionData.image, questionData.audio, questionData.video,
    answerData.image, answerData.audio, answerData.video⟩, storage)

/-- The accumulated output of one parse invocation. -/
structure ParseResult where
  questions : List Question
  fileStorage : List (String × List (String × RFile))
  roundTypes : List (String × String)
deriving DecidableEq, Repr

/-- The question loop of one theme, consuming one random suffix per question
and storing a file-storage entry only when some slot resolved. -/
def processQs (resolve : String → MediaKind → Option RFile) (roundName category : String) :
    List SiqQuestion → (Nat → String) → Nat → ParseResult → ParseResult × Nat
  | [], _, n, acc => (acc, n)
  | q :: rest, sufs, n, acc =>
    let r := mkQuestion resolve roundName category q (sufs n)
    let acc :=
      { acc with
        fileStorage :=
          if r.2.length > 0 then alSet acc.fileStorage r.1.id r.2 else acc.fileStorage,
        questions := acc.questions ++ [r.1] }
    processQs resolve roundName category rest sufs (n + 1) acc

/-- The theme loop of one round. -/
def processThemes (resolve : String → MediaKind → Option RFile) (roundName : String) :
    List SiqTheme → (Nat → String) → Nat → ParseResult → ParseResult × Nat
  | [], _, n, acc => (acc, n)
  | t :: rest, sufs, n, acc =>
    let r := processQs resolve roundName t.name t.questions sufs n acc
    processThemes resolve roundName rest sufs r.2 r.1

/-- `processRound`: record the round type (`final` only on the explicit
marker), then walk its themes. -/
def processRoundModel (resolve : String → MediaKind → Option RFile) (r : SiqRound)
    (sufs : Nat → String) (n : Nat) (acc : ParseResult) : ParseResult × Nat :=
  let roundType := if r.rtype == some "final" then "final" else "regular"
  let acc := { acc with roundTypes := alSet acc.roundTypes r.name roundType }
  processThemes resolve r.name r.themes sufs n acc

/-- The round loop of `parseSiq`, in source document order. -/
def processRounds (resolve : String → MediaKind → Option RFile) :
    List SiqRound → (Nat → String) → Nat → ParseResult → ParseResult × Nat
  | [], _, n, acc => (acc, n)
  | r :: rest, sufs, n, acc =>
    let step := processRoundModel resolve r sufs n acc
    processRounds resolve rest sufs step.2 step.1

/-- The whole round walk over a parsed package. -/
def processPackage (resolve : String → MediaKind → Option RFile) (pkg : SiqPackage)
    (sufs : Nat → String) : ParseResult :=
  (processRounds resolve pkg.rounds sufs 0 ⟨[], [], []⟩).1

/-- `parseSiq` end to end: `none` input models a byte buffer JSZip cannot open;
`xmlParse` models `fast-xml-parser` (an `Except.error` models a thrown parse
error); the exact-name lookup of `content.xml`, the emptiness check, and the
processing of every round mirror the source. -/
def parseSiqModel (zipData : Option ZipArchive)
    (xmlParse : String → Except Unit SiqPackage) (sufs : Nat → String) :
    Except String ParseResult :=
  match zipData with
  | none => Except.error "zip load failed"
  | some ar =>
    match entryAt ar "content.xml" with
    | none => Except.error "Invalid .siq file: content.xml not found"
    | some e =>
      if e.content = "" then Except.error "Invalid .siq file: content.xml not found"
      else
        match xmlParse e.content with
        | Except.error _ => Except.error "XML parse error"
        | Except.ok pkg =>
          let idx := buildIndex ar
          Except.ok (processPackage (extractFile ar idx) pkg sufs)

/-! ## Generic lemmas about the JavaScript collection models -/

theorem alGet_alSet_self {α : Type} (m : List (String × α)) (k : String) (v : α) :
    alGet (alSet m k v) k = some v := by
  induction m with
  | nil => simp [alSet, alGet]
  | cons kv rest ih =>
    obtain ⟨k0, v0⟩ := kv
    by_cases h : k0 = k
    · simp [alSet, alGet, h]
    · simp [alSet, alGet, h, ih]

theorem alGet_alSet_ne {α : Type} (m : List (String × α)) (k k' : String) (v : α)
    (h : k ≠ k') : alGet (alSet m k v) k' = alGet m k' := by
  induction m with
  | nil => simp [alSet, alGet, h]
  | cons kv rest ih =>
    obtain ⟨k0, v0⟩ := kv
    by_cases h0 : k0 = k
    · subst h0
      simp [alSet, alGet, h]
    · simp [alSet, alGet, h0, ih]

theorem alGet_alSet_same_value {α : Type} (m : List (String × α)) (k k' : String) (v : α)
    (h : alGet m k = some v) : alGet (alSet m k' v) k = some v := by
  by_cases hk : k' = k
  · subst hk
    exact alGet_alSet_self m k' v
  · rw [alGet_alSet_ne m k' k v hk]
    exact h

theorem mem_alSet {α : Type} (m : List (String × α)) (k : String) (v : α) :
    ∀ kv ∈ alSet m k v, kv ∈ m ∨ kv = (k, v) := by
  induction m with
  | nil => simp [alSet]
  | cons kv0 rest ih =>
    obtain ⟨k0, v0⟩ := kv0
    intro kv hkv
    by_cases h : k0 = k
    · simp only [alSet, if_pos h] at hkv
      rcases List.mem_cons.mp hkv with h1 | h1
      · right
        exact h1
      · left
        exact List.mem_cons_of_mem _ h1
    · simp only [alSet, if_neg h] at hkv
      rcases List.mem_cons.mp hkv with h1 | h1
      · left
        exact h1 ▸ List.mem_cons_self _ _
      · rcases ih kv h1 with h2 | h2
        · left
          exact List.mem_cons_of_mem _ h2
        · right
          exact h2

theorem alSet_snd_all {α : Type} (m : List (String × α)) (k : String) (x : α)
    (h : ∀ kv ∈ m, kv.2 = x) : ∀ kv ∈ alSet m k x, kv.2 = x := by
  intro kv hkv
  rcases mem_alSet m k x kv hkv with h1 | h1
  · exact h kv h1
  · rw [h1]

theorem alGet_val_of_snd_all {α : Type} (m : List (String × α)) (k : String) (x : α)
    (h : ∀ kv ∈ m, kv.2 = x) {v : α} (hv : alGet m k = some v) : v = x := by
  induction m with
  | nil => simp [alGet] at hv
  | cons kv0 rest ih =>
    obtain ⟨k0, v0⟩ := kv0
    by_cases hk : k0 = k
    · simp only [alGet, if_pos hk] at hv
      have := h (k0, v0) (List.mem_cons_self _ _)
      simp at this
      rw [← Option.some_inj.mp hv, this]
    · simp only [alGet, if_neg hk] at hv
      exact ih (fun kv hkv => h kv (List.mem_cons_of_mem _ hkv)) hv

theorem mem_setAdd_self (l : List String) (s : String) : s ∈ setAdd l s := by
  unfold setAdd
  split
  · assumption
  · simp

theorem mem_setAdd_of_mem (l : List String) (s x : String) (h : x ∈ l) : x ∈ setAdd l s := by
  unfold setAdd
  split
  · exact h
  · exact List.mem_append_left _ h

theorem findSome?_ne_none {α β : Type} (l : List α) (f : α → Option β) (x : α)
    (hx : x ∈ l) (hf : f x ≠ none) : l.findSome? f ≠ none := by
  induction l with
  | nil => simp at hx
  | cons a rest ih =>
    rcases List.mem_cons.mp hx with h | h
    · subst h
      cases hfa : f x with
      | none => exact absurd hfa hf
      | some b => simp [List.findSome?_cons, hfa]
    · cases hfa : f a with
      | none => simpa [List.findSome?_cons, hfa] using ih h
      | some b => simp [List.findSome?_cons, hfa]

theorem exists_of_findSome?_some {α β : Type} {l : List α} {f : α → Option β} {b : β}
    (h : l.findSome? f = some b) : ∃ a ∈ l, f a = some b := by
  induction l with
  | nil => simp [List.findSome?] at h
  | cons a rest ih =>
    cases hfa : f a with
    | none =>
      simp only [List.findSome?_cons, hfa] at h
      obtain ⟨x, hx, hfx⟩ := ih h
      exact ⟨x, List.mem_cons_of_mem _ hx, hfx⟩
    | some c =>
      simp only [List.findSome?_cons, hfa] at h
      exact ⟨a, List.mem_cons_self _ _, by rw [hfa, h]⟩

/-! ## Round-type bookkeeping (claim C3) -/

theorem processQs_roundTypes (resolve : String → MediaKind → Option RFile)
    (rn cat : String) (qs : List SiqQuestion) (sufs : Nat → String) (n : Nat)
    (acc : ParseResult) :
    (processQs resolve rn cat qs sufs n acc).1.roundTypes = acc.roundTypes := by
  induction qs generalizing n acc with
  | nil => rfl
  | cons q rest ih => simpa [processQs] using ih (n + 1) _

theorem processThemes_roundTypes (resolve : String → MediaKind → Option RFile)
    (rn : String) (ts : List SiqTheme) (sufs : Nat → String) (n : Nat)
    (acc : ParseResult) :
    (processThemes resolve rn ts sufs n acc).1.roundTypes = acc.roundTypes := by
  induction ts generalizing n acc with
  | nil => rfl
  | cons t rest ih =>
    simp only [processThemes]
    rw [ih, processQs_roundTypes]

theorem processRounds_roundTypes (resolve : String → MediaKind → Option RFile)
    (rs : List SiqRound) (sufs : Nat → String) (n : Nat) (acc : ParseResult) :
    (processRounds resolve rs sufs n acc).1.roundTypes =
      rs.foldl
        (fun m r => alSet m r.name (if r.rtype == some "final" then "final" else "regular"))
        acc.roundTypes := by
  induction rs generalizing n acc with
  | nil => rfl
  | cons r rest ih =>
    simp only [processRounds, List.foldl_cons]
    rw [ih]
    simp [processRoundModel, processThemes_roundTypes]

theorem alGet_foldl_rounds_not_mem (l : List SiqRound) (m : List (String × String))
    (key : String) (h : ∀ r ∈ l, r.name ≠ key) :
    alGet
      (l.foldl
        (fun m r => alSet m r.name (if r.rtype == some "final" then "final" else "regular")) m)
      key = alGet m key := by
  induction l generalizing m with
  | nil => rfl
  | cons r rest ih =>
    simp only [List.foldl_cons]
    rw [ih _ (fun r' hr' => h r' (List.mem_cons_of_mem _ hr')),
      alGet_alSet_ne _ _ _ _ (h r (List.mem_cons_self _ _))]

theorem alGet_foldl_rounds_mem (l : List SiqRound) (m : List (String × String))
    (r : SiqRound) (hmem : r ∈ l) (hnd : (l.map SiqRound.name).Nodup) :
    alGet
      (l.foldl
        (fun m r => alSet m r.name (if r.rtype == some "final" then "final" else "regular")) m)
      r.name = some (if r.rtype == some "final" then "final" else "regular") := by
  induction l generalizing m with
  | nil => simp at hmem
  | cons r0 rest ih =>
    simp only [List.map_cons, List.nodup_cons] at hnd
    rcases List.mem_cons.mp hmem with h | h
    · subst h
      simp only [List.foldl_cons]
      rw [alGet_foldl_rounds_not_mem _ _ _
        (fun r' hr' hn => hnd.1 (by rw [← hn]; exact List.mem_map_of_mem SiqRound.name hr'))]
      exact alGet_alSet_self _ _ _
    · simp only [List.foldl_cons]
      exact ih _ h hnd.2

/-- C3: for every round in the package (round names being unique within a
package), the emitted round type is `final` if and only if the round's
explicit type marker literally equals `"final"`; a round merely named
"Final Round" without that marker therefore comes out `regular`. -/
theorem c3_round_final_iff_explicit_marker (resolve : String → MediaKind → Option RFile)
    (pkg : SiqPackage) (sufs : Nat → String) (r : SiqRound) (hmem : r ∈ pkg.rounds)
    (hnd : (pkg.rounds.map SiqRound.name).Nodup) :
    alGet (processPackage resolve pkg sufs).roundTypes r.name = some "final" ↔
      r.rtype = some "final" := by
  unfold processPackage
  rw [processRounds_roundTypes, alGet_foldl_rounds_mem _ _ r hmem hnd]
  by_cases h : r.rtype = some "final"
  · simp [h]
  · have hb : (r.rtype == some "final") = false := by
      simpa using h
    simp [hb, h]

/-- C3 witness: a package whose only round is named "Final Round" but carries
no explicit marker is emitted as `regular` (its round type is not `final`). -/
theorem c3_round_final_iff_explicit_marker_witness :
    alGet
      (processPackage (fun _ _ => none) ⟨[⟨"Final Round", none, []⟩]⟩
        (fun _ => "aaaaa")).roundTypes
      "Final Round" ≠ some "final" := by
  intro h
  have := (c3_round_final_iff_explicit_marker (fun _ _ => none)
    ⟨[⟨"Final Round", none, []⟩]⟩ (fun _ => "aaaaa") ⟨"Final Round", none, []⟩
    (List.mem_singleton.mpr rfl) (by simp)).mp h
  simp at this

/-! ## Answer merging (claim C10) -/

/-- C10: the emitted answer text merges the first legacy right-answer with the
text extracted from the answer content slot: with no content text the
right-answer (possibly empty) is kept unchanged; with content text and an
empty right-answer the content text is used alone; with both non-empty the
result is `right (contentText)`. -/
theorem c10_answer_merge (resolve : String → MediaKind → Option RFile)
    (rn cat : String) (q : SiqQuestion) (suffix : String) :
    ((parseContentItems resolve (extractContentItems q "answer")).text = none →
      (mkQuestion resolve rn cat q suffix).1.answer = q.right.headD "") ∧
    (∀ c, (parseContentItems resolve (extractContentItems q "answer")).text = some c →
      q.right.headD "" = "" → (mkQuestion resolve rn cat q suffix).1.answer = c) ∧
    (∀ c, (parseContentItems resolve (extractContentItems q "answer")).text = some c →
      q.right.headD "" ≠ "" →
      (mkQuestion resolve rn cat q suffix).1.answer =
        q.right.headD "" ++ " (" ++ c ++ ")") := by
  refine ⟨fun h => ?_, fun c h h0 => ?_, fun c h h0 => ?_⟩ <;>
    · rcases hq : q.right with _ | ⟨a, t⟩ <;> simp_all [mkQuestion, hq]

/-- C10 witness: a question with right-answer `right` and answer-slot content
text `extra` is emitted with answer `right (extra)`. -/
theorem c10_answer_merge_witness :
    (mkQuestion (fun _ _ => none) "R" "C"
      ⟨none, none, none, none, none, none, none, none, ["right"],
        some [.mk (some "answer") none "" (some [⟨some "text", "extra"⟩]) none]⟩
      "s").1.answer = "right (extra)" := by
  exact (c10_answer_merge (fun _ _ => none) "R" "C"
    ⟨none, none, none, none, none, none, none, none, ["right"],
      some [.mk (some "answer") none "" (some [⟨some "text", "extra"⟩]) none]⟩
    "s").2.2 "extra" (by decide) (by decide)

/-! ## Schema adapter (claim C8) -/

/-- C8: the schema adapter probes the modern `params` shape first (an entry
named as the slot with items present wins); the legacy `scenario`/`atom` shape
never feeds the `answer` slot (removing the scenario leaves the `answer`
result unchanged, and a question without `params` yields `[]` there); with
neither shape present any slot yields `[]`. -/
theorem c8_modern_first_legacy_question_only (q : SiqQuestion) (target : String) :
    (∀ ps p its, q.params = some ps →
      ps.find? (fun p0 => p0.name == some target) = some p → p.items = some its →
      extractContentItems q target =
        its.map (fun it => ⟨jsStrOr it.itemType "text", it.text⟩)) ∧
    (q.params = none → extractContentItems q "answer" = []) ∧
    (extractContentItems q "answer" =
      extractContentItems { q with scenario := none } "answer") ∧
    (q.params = none → q.scenario = none → extractContentItems q target = []) := by
  refine ⟨fun ps p its hps hfind hits => ?_, fun hps => ?_, ?_, fun hps hsc => ?_⟩
  · simp [extractContentItems, hps, hfind, hits]
  · simp [extractContentItems, hps]
  · obtain ⟨pa, ca, va, pc, pe, ce, ve, sc, ri, ps⟩ := q
    cases ps with
    | none => simp [extractContentItems]
    | some l =>
      simp only [extractContentItems]
      cases l.find? (fun p0 => p0.name == some "answer") with
      | none => simp
      | some p =>
        cases p.items <;> simp
  · by_cases hq : target = "question" <;> simp [extractContentItems, hps, hsc, hq]

/-- C8 witness: a legacy-only question (scenario atoms, no `params`) yields the
empty item list for the `answer` slot. -/
theorem c8_modern_first_legacy_question_only_witness :
    extractContentItems
      ⟨none, none, none, none, none, none, none, some [⟨some "text", "legacy"⟩], [], none⟩
      "answer" = [] := by
  exact (c8_modern_first_legacy_question_only
    ⟨none, none, none, none, none, none, none, some [⟨some "text", "legacy"⟩], [], none⟩
    "answer").2.1 rfl

/-! ## Content classifier media slots (claim C4, corrected) -/

/-- The item a JavaScript overwrite loop leaves in a slot: the last list
element satisfying the predicate. -/
def lastMatch (p : CItem → Bool) (items : List CItem) : Option CItem :=
  items.foldl (fun acc it => if p it then some it else acc) none

/-- An `image` item with a non-empty value. -/
def imgP (it : CItem) : Bool := it.ctype == "image" && it.text != ""

/-- A `voice`/`audio` item with a non-empty value. -/
def audP (it : CItem) : Bool := (it.ctype == "voice" || it.ctype == "audio") && it.text != ""

theorem foldl_lastAcc (g : Option CItem → CItem → Option CItem)
    (hg : ∀ a it, g a it = if imgP it then some it else a) :
    ∀ (l : List CItem) (acc : Option CItem),
      l.foldl g acc =
        match l.foldl g none with
        | some x => some x
        | none => acc := by
  intro l
  induction l with
  | nil => intro acc; simp
  | cons j t ih =>
    intro acc
    simp only [List.foldl_cons]
    rw [ih (g acc j), ih (g none j)]
    cases ht : t.foldl g none with
    | some x => simp
    | none =>
      simp only []
      rw [hg acc j, hg none j]
      by_cases hp : imgP j <;> simp [hp]

theorem foldl_lastAccA (g : Option CItem → CItem → Option CItem)
    (hg : ∀ a it, g a it = if audP it then some it else a) :
    ∀ (l : List CItem) (acc : Option CItem),
      l.foldl g acc =
        match l.foldl g none with
        | some x => some x
        | none => acc := by
  intro l
  induction l with
  | nil => intro acc; simp
  | cons j t ih =>
    intro acc
    simp only [List.foldl_cons]
    rw [ih (g acc j), ih (g none j)]
    cases ht : t.foldl g none with
    | some x => simp
    | none =>
      simp only []
      rw [hg acc j, hg none j]
      by_cases hp : audP j <;> simp [hp]

theorem pciStep_image_of (resolve : String → MediaKind → Option RFile) (st : PState)
    (it : CItem) (h : imgP it = true) :
    (pciStep resolve st it).image = resolve it.text .images := by
  simp only [imgP, Bool.and_eq_true, beq_iff_eq, bne_iff_ne, ne_eq] at h
  simp [pciStep, h.1, h.2]

theorem pciStep_image_keep (resolve : String → MediaKind → Option RFile) (st : PState)
    (it : CItem) (h : imgP it = false) : (pciStep resolve st it).image = st.image := by
  have h' : ¬(it.ctype = "image" ∧ it.text ≠ "") := by
    rintro ⟨h2, ht⟩
    simp [imgP, h2, ht] at h
  unfold pciStep
  by_cases h1 : it.ctype = "text" ∨ it.ctype = "say"
  · rw [if_pos h1]
    split <;> rfl
  · rw [if_neg h1]
    by_cases h2 : it.ctype = "image"
    · rw [if_pos h2, if_neg (fun ht => h' ⟨h2, ht⟩)]
    · rw [if_neg h2]
      by_cases h3 : it.ctype = "voice" ∨ it.ctype = "audio"
      · rw [if_pos h3]
        split <;> rfl
      · rw [if_neg h3]
        by_cases h4 : it.ctype = "video"
        · rw [if_pos h4]
          split <;> rfl
        · rw [if_neg h4]

theorem pciStep_audio_of (resolve : String → MediaKind → Option RFile) (st : PState)
    (it : CItem) (h : audP it = true) :
    (pciStep resolve st it).audio = resolve it.text .audio := by
  simp only [audP, Bool.and_eq_true, Bool.or_eq_true, beq_iff_eq, bne_iff_ne, ne_eq] at h
  rcases h with ⟨hv | hv, ht⟩ <;> simp [pciStep, hv, ht]

theorem pciStep_audio_keep (resolve : String → MediaKind → Option RFile) (st : PState)
    (it : CItem) (h : audP it = false) : (pciStep resolve st it).audio = st.audio := by
  have h' : ¬((it.ctype = "voice" ∨ it.ctype = "audio") ∧ it.text ≠ "") := by
    rintro ⟨h2, ht⟩
    rcases h2 with h2 | h2 <;> simp [audP, h2, ht] at h
  unfold pciStep
  by_cases h1 : it.ctype = "text" ∨ it.ctype = "say"
  · rw [if_pos h1]
    split <;> rfl
  · rw [if_neg h1]
    by_cases h2 : it.ctype = "image"
    · rw [if_pos h2]
      split <;> rfl
    · rw [if_neg h2]
      by_cases h3 : it.ctype = "voice" ∨ it.ctype = "audio"
      · rw [if_pos h3, if_neg (fun ht => h' ⟨h3, ht⟩)]
      · rw [if_neg h3]
        by_cases h4 : it.ctype = "video"
        · rw [if_pos h4]
          split <;> rfl
        · rw [if_neg h4]

theorem pci_image_fold (resolve : String → MediaKind → Option RFile) (items : List CItem) :
    ∀ st : PState,
      (items.foldl (pciStep resolve) st).image =
        match lastMatch imgP items with
        | some it => resolve it.text .images
        | none => st.image := by
  induction items with
  | nil => intro st; simp [lastMatch]
  | cons i rest ih =>
    intro st
    simp only [List.foldl_cons, lastMatch]
    rw [ih (pciStep resolve st i),
      foldl_lastAcc (fun acc it => if imgP it then some it else acc) (fun _ _ => rfl) rest
        (if imgP i then some i else none)]
    simp only [lastMatch]
    cases hr : rest.foldl (fun acc it => if imgP it then some it else acc) none with
    | some x => simp
    | none =>
      by_cases hp : imgP i
      · simp [hp, pciStep_image_of resolve st i hp]
      · simp [hp, pciStep_image_keep resolve st i (by simpa using hp)]

theorem pci_audio_fold (resolve : String → MediaKind → Option RFile) (items : List CItem) :
    ∀ st : PState,
      (items.foldl (pciStep resolve) st).audio =
        match lastMatch audP items with
        | some it => resolve it.text .audio
        | none => st.audio := by
  induction items with
  | nil => intro st; simp [lastMatch]
  | cons i rest ih =>
    intro st
    simp only [List.foldl_cons, lastMatch]
    rw [ih (pciStep resolve st i),
      foldl_lastAccA (fun acc it => if audP it then some it else acc) (fun _ _ => rfl) rest
        (if audP i then some i else none)]
    simp only [lastMatch]
    cases hr : rest.foldl (fun acc it => if audP it then some it else acc) none with
    | some x => simp
    | none =>
      by_cases hp : audP i
      · simp [hp, pciStep_audio_of resolve st i hp]
      · simp [hp, pciStep_audio_keep resolve st i (by simpa using hp)]

/-- C4 counterexample: with two resolvable `image` items the produced payload
holds the blob of the second (last) item, not of the first — refuting the
claim that the first item of a kind wins and later ones never replace it. -/
theorem c4_counterexample :
    (parseContentItems (fun n _ => some ⟨n, n, "m"⟩)
        [⟨"image", "a.png"⟩, ⟨"image", "b.png"⟩]).image =
      (fun (n : String) (_ : MediaKind) => some (⟨n, n, "m"⟩ : RFile)) "b.png" .images ∧
    (fun (n : String) (_ : MediaKind) => some (⟨n, n, "m"⟩ : RFile)) "b.png" .images ≠
      (fun (n : String) (_ : MediaKind) => some (⟨n, n, "m"⟩ : RFile)) "a.png" .images := by
  exact ⟨rfl, by decide⟩

/-- C4 (amended): the image slot of the produced payload is the resolution of
the *last* `image` item with a non-empty value (absent when there is none or
when that resolution misses), and the audio slot is likewise the resolution of
the last `voice`/`audio` item with a non-empty value: later items of the same
kind replace earlier ones. -/
theorem c4_last_media_item_wins (resolve : String → MediaKind → Option RFile)
    (items : List CItem) :
    (parseContentItems resolve items).image =
      (lastMatch imgP items).bind (fun it => resolve it.text .images) ∧
    (parseContentItems resolve items).audio =
      (lastMatch audP items).bind (fun it => resolve it.text .audio) := by
  constructor
  · simp only [parseContentItems]
    rw [pci_image_fold resolve items ⟨.text, [], none, none, none⟩]
    cases lastMatch imgP items <;> simp
  · simp only [parseContentItems]
    rw [pci_audio_fold resolve items ⟨.text, [], none, none, none⟩]
    cases lastMatch audP items <;> simp

/-! ## Score resolution (claim C6, corrected) -/

theorem mkQuestion_score (resolve : String → MediaKind → Option RFile) (rn cat : String)
    (q : SiqQuestion) (suffix : String) :
    (mkQuestion resolve rn cat q suffix).1.score = resolveScore q := rfl

/-- The accepted price/cost/value spellings actually present on a question
node, in the order the source consults them. -/
def priceSpellings (q : SiqQuestion) : List String :=
  q.priceAttr.toList ++ q.costAttr.toList ++ q.valueAttr.toList ++ q.priceAttrCap.toList ++
  (if elemTruthy q.priceElem then [svText q.priceElem] else []) ++
  (if elemTruthy q.costElem then [svText q.costElem] else []) ++
  (if elemTruthy q.valueElem then [svText q.valueElem] else [])

theorem jsOr_eq_some {a b : Option String} {s : String} (h : jsOr a b = some s) :
    a = some s ∨ b = some s := by
  cases a with
  | none => exact Or.inr h
  | some t =>
    by_cases ht : t = ""
    · subst ht
      simp [jsOr] at h
      exact Or.inr h
    · simp [jsOr, ht] at h
      exact Or.inl (by rw [h])

theorem childPriceValue_mem {q : SiqQuestion} {s : String}
    (h : childPriceValue q = some s) : s ∈ priceSpellings q := by
  unfold childPriceValue at h
  by_cases h1 : elemTruthy q.priceElem
  · simp only [h1, if_true] at h
    simp [priceSpellings, h1, ← Option.some_inj.mp h]
  · simp only [h1] at h
    by_cases h2 : elemTruthy q.costElem
    · simp only [h2, if_true, if_false] at h
      simp [priceSpellings, h2, ← Option.some_inj.mp h]
    · simp only [h2] at h
      by_cases h3 : elemTruthy q.valueElem
      · simp only [h3, if_true, if_false] at h
        simp [priceSpellings, h3, ← Option.some_inj.mp h]
      · simp [h3] at h

theorem attrChain_mem {q : SiqQuestion} {s : String}
    (h : jsOr q.priceAttr (jsOr q.costAttr (jsOr q.valueAttr q.priceAttrCap)) = some s) :
    s ∈ priceSpellings q := by
  rcases jsOr_eq_some h with h1 | h1
  · simp [priceSpellings, h1]
  · rcases jsOr_eq_some h1 with h2 | h2
    · simp [priceSpellings, h2]
    · rcases jsOr_eq_some h2 with h3 | h3
      · simp [priceSpellings, h3]
      · simp [priceSpellings, h3]

theorem resolveScore_cases (q : SiqQuestion) :
    resolveScore q = 0 ∨ ∃ s ∈ priceSpellings q, parseIntJS s = some (resolveScore q) := by
  unfold resolveScore
  cases hpv : jsOr q.priceAttr (jsOr q.costAttr (jsOr q.valueAttr q.priceAttrCap)) with
  | some s =>
    simp only []
    cases hp : parseIntJS s with
    | none => left; simp [hp]
    | some v =>
      right
      exact ⟨s, attrChain_mem hpv, by simp [hp]⟩
  | none =>
    simp only []
    cases hc : childPriceValue q with
    | none => left; decide
    | some s =>
      cases hp : parseIntJS s with
      | none => left; simp [hp]
      | some v =>
        right
        exact ⟨s, childPriceValue_mem hc, by simp [hp]⟩

/-- C6 counterexample: a question whose `price` attribute is `"-100"` is
emitted with score `-100`, which is negative — refuting the claim that the
resolved score is always a non-negative integer. -/
theorem c6_counterexample :
    (mkQuestion (fun _ _ => none) "R" "C"
        ⟨some "-100", none, none, none, none, none, none, none, [], none⟩ "s").1.score = -100 ∧
    (mkQuestion (fun _ _ => none) "R" "C"
        ⟨some "-100", none, none, none, none, none, none, none, [], none⟩ "s").1.score < 0 := by
  constructor <;> decide

/-- C6 (amended): the resolved score is an integer (possibly negative) read
via `parseInt` from one of the accepted price/cost/value spellings present on
the node, and equals `0` whenever none of those spellings parses as an
integer. -/
theorem c6_score_from_spellings_or_zero (resolve : String → MediaKind → Option RFile)
    (rn cat : String) (q : SiqQuestion) (suffix : String) :
    ((mkQuestion resolve rn cat q suffix).1.score = 0 ∨
      ∃ s ∈ priceSpellings q,
        parseIntJS s = some ((mkQuestion resolve rn cat q suffix).1.score)) ∧
    ((∀ s ∈ priceSpellings q, parseIntJS s = none) →
      (mkQuestion resolve rn cat q suffix).1.score = 0) := by
  rw [mkQuestion_score]
  refine ⟨resolveScore_cases q, fun h => ?_⟩
  rcases resolveScore_cases q with h0 | ⟨s, hs, hp⟩
  · exact h0
  · rw [h s hs] at hp
    cases hp

/-- C6 witness: a question carrying no parsable spelling at all scores `0`. -/
theorem c6_score_from_spellings_or_zero_witness :
    (mkQuestion (fun _ _ => none) "R" "C"
        ⟨some "abc", none, none, none, none, none, none, none, [], none⟩ "s").1.score = 0 := by
  exact (c6_score_from_spellings_or_zero (fun _ _ => none) "R" "C"
    ⟨some "abc", none, none, none, none, none, none, none, [], none⟩ "s").2 (by decide)

/-! ## Select questions and answer options (claim C7, corrected) -/

theorem mkQuestion_qtype (resolve : String → MediaKind → Option RFile) (rn cat : String)
    (q : SiqQuestion) (suffix : String) :
    (mkQuestion resolve rn cat q suffix).1.qtype =
      (selectResolve q (parseContentItems resolve (extractContentItems q "question")).ctype).1 :=
  rfl

theorem mkQuestion_answerOptions (resolve : String → MediaKind → Option RFile)
    (rn cat : String) (q : SiqQuestion) (suffix : String) :
    (mkQuestion resolve rn cat q suffix).1.answerOptions =
      (if (selectResolve q
            (parseContentItems resolve (extractContentItems q "question")).ctype).2.length > 0
        then some (selectResolve q
          (parseContentItems resolve (extractContentItems q "question")).ctype).2
        else none) :=
  rfl

theorem selectResolve_of_select {q : SiqQuestion} {ps : List SiqParam} {tp : SiqParam}
    (mt : QType) (hps : q.params = some ps)
    (hfind : ps.find? (fun p0 => p0.name == some "answerType") = some tp)
    (hsel : tp.text = "select") :
    selectResolve q mt =
      (QType.select,
        match ps.find? (fun p0 => p0.name == some "answerOptions" && p0.ptype == some "group") with
        | some g =>
          match g.children with
          | some cs => cs.map optionString
          | none => []
        | none => []) := by
  simp [selectResolve, hps, hfind, hsel]

/-- C7 counterexample: a question whose params carry `answerType = "select"`
but no `answerOptions` group is emitted with type `select` and with *absent*
`answerOptions` — refuting the claim that every such question has a non-empty
`answerOptions` list. -/
theorem c7_counterexample :
    (mkQuestion (fun _ _ => none) "R" "C"
        ⟨none, none, none, none, none, none, none, none, [],
          some [.mk (some "answerType") none "select" none none]⟩ "s").1.qtype =
      QType.select ∧
    (mkQuestion (fun _ _ => none) "R" "C"
        ⟨none, none, none, none, none, none, none, none, [],
          some [.mk (some "answerType") none "select" none none]⟩ "s").1.answerOptions =
      none := by
  constructor <;> rfl

/-- C7 (amended): when the modern params contain an entry named `answerType`
with text `select`, the emitted question has type `Select` regardless of the
media classification; its `answerOptions` is the declared-order list of
`"{optionKey}: {optionText}"` strings when a grouped `answerOptions` param
with at least one nested param is present, and is absent otherwise. -/
theorem c7_select_type_and_options (resolve : String → MediaKind → Option RFile)
    (rn cat : String) (q : SiqQuestion) (suffix : String) (ps : List SiqParam)
    (tp : SiqParam) (hps : q.params = some ps)
    (hfind : ps.find? (fun p0 => p0.name == some "answerType") = some tp)
    (hsel : tp.text = "select") :
    (mkQuestion resolve rn cat q suffix).1.qtype = QType.select ∧
    (mkQuestion resolve rn cat q suffix).1.answerOptions =
      (match ps.find? (fun p0 => p0.name == some "answerOptions" && p0.ptype == some "group") with
        | some g =>
          match g.children with
          | some (c :: cs) => some ((c :: cs).map optionString)
          | some [] => none
          | none => none
        | none => none) := by
  constructor
  · rw [mkQuestion_qtype, selectResolve_of_select _ hps hfind hsel]
  · rw [mkQuestion_answerOptions, selectResolve_of_select _ hps hfind hsel]
    cases hg : ps.find? (fun p0 => p0.name == some "answerOptions" && p0.ptype == some "group") with
    | none => simp
    | some g =>
      cases hc : g.children with
      | none => simp [hc]
      | some cs => cases cs <;> simp [hc]

/-- C7 witness: a select question with two declared options is emitted with
type `Select` and the non-empty ordered option list. -/
theorem c7_select_type_and_options_witness :
    (mkQuestion (fun _ _ => none) "R" "C"
        ⟨none, none, none, none, none, none, none, none, [],
          some [.mk (some "answerType") none "select" none none,
            .mk (some "answerOptions") (some "group") "" none
              (some [.mk (some "A") none "foo" none none,
                .mk (some "B") none "bar" none none])]⟩ "s").1.qtype = QType.select ∧
    (mkQuestion (fun _ _ => none) "R" "C"
        ⟨none, none, none, none, none, none, none, none, [],
          some [.mk (some "answerType") none "select" none none,
            .mk (some "answerOptions") (some "group") "" none
              (some [.mk (some "A") none "foo" none none,
                .mk (some "B") none "bar" none none])]⟩ "s").1.answerOptions =
      some ["A: foo", "B: bar"] := by
  have h := c7_select_type_and_options (fun _ _ => none) "R" "C"
    ⟨none, none, none, none, none, none, none, none, [],
      some [.mk (some "answerType") none "select" none none,
        .mk (some "answerOptions") (some "group") "" none
          (some [.mk (some "A") none "foo" none none,
            .mk (some "B") none "bar" none none])]⟩ "s"
    [.mk (some "answerType") none "select" none none,
      .mk (some "answerOptions") (some "group") "" none
        (some [.mk (some "A") none "foo" none none,
          .mk (some "B") none "bar" none none])]
    (.mk (some "answerType") none "select" none none) rfl rfl rfl
  exact ⟨h.1, by rw [h.2]; rfl⟩

/-! ## Fatal-error surface of the parse (claim C1, corrected) -/

/-- C1 (amended): the parse fails exactly when the byte buffer cannot be
opened as a zip archive, or the archive lacks a readable entry named exactly
`content.xml` (the lookup is case-sensitive), or that root document is empty,
or the XML parser throws on it; under every other circumstance the parse
succeeds with a result. -/
theorem c1_parse_ok_iff_exact_root (zipData : Option ZipArchive)
    (xmlParse : String → Except Unit SiqPackage) (sufs : Nat → String) :
    (∃ res, parseSiqModel zipData xmlParse sufs = Except.ok res) ↔
      (∃ ar e pkg, zipData = some ar ∧ entryAt ar "content.xml" = some e ∧
        e.content ≠ "" ∧ xmlParse e.content = Except.ok pkg) := by
  constructor
  · rintro ⟨res, h⟩
    cases hz : zipData with
    | none =>
      rw [hz] at h
      exact Except.noConfusion h
    | some ar =>
      rw [hz] at h
      cases he : entryAt ar "content.xml" with
      | none =>
        simp only [parseSiqModel, he] at h
        exact Except.noConfusion h
      | some e =>
        simp only [parseSiqModel, he] at h
        by_cases hc : e.content = ""
        · rw [if_pos hc] at h
          exact Except.noConfusion h
        · rw [if_neg hc] at h
          cases hx : xmlParse e.content with
          | error err =>
            rw [hx] at h
            exact Except.noConfusion h
          | ok pkg => exact ⟨ar, e, pkg, rfl, he, hc, hx⟩
  · rintro ⟨ar, e, pkg, hz, he, hc, hx⟩
    subst hz
    refine ⟨processPackage (extractFile ar (buildIndex ar)) pkg sufs, ?_⟩
    simp only [parseSiqModel, he, if_neg hc, hx]

/-- C1 witness: a healthy archive (exact-case `content.xml`, non-empty,
parsable) parses successfully. -/
theorem c1_parse_ok_iff_exact_root_witness :
    ∃ res,
      parseSiqModel (some [⟨"content.xml", false, "<package/>", ""⟩])
        (fun _ => Except.ok ⟨[]⟩) (fun _ => "aaaaa") = Except.ok res := by
  exact (c1_parse_ok_iff_exact_root (some [⟨"content.xml", false, "<package/>", ""⟩])
    (fun _ => Except.ok ⟨[]⟩) (fun _ => "aaaaa")).mpr
    ⟨[⟨"content.xml", false, "<package/>", ""⟩], ⟨"content.xml", false, "<package/>", ""⟩,
      ⟨[]⟩, rfl, by decide, by decide, rfl⟩

/-- C1 counterexample: an archive whose only entry is `Content.xml` — which
matches `content.xml` case-insensitively, is non-empty and parses — still
makes the parse throw, because the root-document lookup is case-sensitive;
this refutes the claim's case-insensitive reading. -/
theorem c1_counterexample :
    ((⟨lowerL ("Content.xml" : String).data⟩ : String) = "content.xml") ∧
    (("<package/>" : String) ≠ "") ∧
    ((fun (_ : String) => (Except.ok ⟨[]⟩ : Except Unit SiqPackage)) "<package/>" =
      Except.ok ⟨[]⟩) ∧
    parseSiqModel (some [⟨"Content.xml", false, "<package/>", ""⟩])
        (fun _ => Except.ok ⟨[]⟩) (fun _ => "aaaaa") =
      Except.error "Invalid .siq file: content.xml not found" := by
  exact ⟨by decide, by decide, rfl, rfl⟩

/-! ## Document order and id generation (claims C9 and C5) -/

/-- The questions the theme/question loops emit, written as a plain list
comprehension with the running suffix index made explicit. -/
def qsOut (resolve : String → MediaKind → Option RFile) (rn cat : String) :
    List SiqQuestion → (Nat → String) → Nat → List Question
  | [], _, _ => []
  | q :: rest, sufs, n =>
    (mkQuestion resolve rn cat q (sufs n)).1 :: qsOut resolve rn cat rest sufs (n + 1)

/-- The questions one round's theme loop emits. -/
def themesOut (resolve : String → MediaKind → Option RFile) (rn : String) :
    List SiqTheme → (Nat → String) → Nat → List Question
  | [], _, _ => []
  | t :: rest, sufs, n =>
    qsOut resolve rn t.name t.questions sufs n ++
      themesOut resolve rn rest sufs (n + t.questions.length)

/-- The number of questions inside one round. -/
def roundCount (r : SiqRound) : Nat := (r.themes.map (fun t => t.questions.length)).sum

/-- The questions the round loop emits. -/
def roundsOut (resolve : String → MediaKind → Option RFile) :
    List SiqRound → (Nat → String) → Nat → List Question
  | [], _, _ => []
  | r :: rest, sufs, n =>
    themesOut resolve r.name r.themes sufs n ++ roundsOut resolve rest sufs (n + roundCount r)

theorem processQs_spec (resolve : String → MediaKind → Option RFile) (rn cat : String)
    (qs : List SiqQuestion) (sufs : Nat → String) (n : Nat) (acc : ParseResult) :
    (processQs resolve rn cat qs sufs n acc).1.questions =
      acc.questions ++ qsOut resolve rn cat qs sufs n ∧
    (processQs resolve rn cat qs sufs n acc).2 = n + qs.length := by
  induction qs generalizing n acc with
  | nil => simp [processQs, qsOut]
  | cons q rest ih =>
    simp only [processQs, qsOut]
    refine ⟨?_, ?_⟩
    · rw [(ih (n + 1) _).1]
      simp
    · rw [(ih (n + 1) _).2]
      simp only [List.length_cons]
      omega

theorem processThemes_spec (resolve : String → MediaKind → Option RFile) (rn : String)
    (ts : List SiqTheme) (sufs : Nat → String) (n : Nat) (acc : ParseResult) :
    (processThemes resolve rn ts sufs n acc).1.questions =
      acc.questions ++ themesOut resolve rn ts sufs n ∧
    (processThemes resolve rn ts sufs n acc).2 =
      n + (ts.map (fun t => t.questions.length)).sum := by
  induction ts generalizing n acc with
  | nil => simp [processThemes, themesOut]
  | cons t rest ih =>
    simp only [processThemes, themesOut]
    have hq := processQs_spec resolve rn t.name t.questions sufs n acc
    refine ⟨?_, ?_⟩
    · rw [(ih _ _).1, hq.1, hq.2]
      simp
    · rw [(ih _ _).2, hq.2]
      simp only [List.map_cons, List.sum_cons]
      omega

theorem processRounds_spec (resolve : String → MediaKind → Option RFile)
    (rs : List SiqRound) (sufs : Nat → String) (n : Nat) (acc : ParseResult) :
    (processRounds resolve rs sufs n acc).1.questions =
      acc.questions ++ roundsOut resolve rs sufs n := by
  induction rs generalizing n acc with
  | nil => simp [processRounds, roundsOut]
  | cons r rest ih =>
    simp only [processRounds, roundsOut, processRoundModel]
    have ht := processThemes_spec resolve r.name r.themes sufs n
      { acc with
        roundTypes :=
          alSet acc.roundTypes r.name (if r.rtype == some "final" then "final" else "regular") }
    rw [ih _ _, ht.1, ht.2]
    simp [roundCount]

theorem processPackage_questions (resolve : String → MediaKind → Option RFile)
    (pkg : SiqPackage) (sufs : Nat → String) :
    (processPackage resolve pkg sufs).questions = roundsOut resolve pkg.rounds sufs 0 := by
  unfold processPackage
  rw [processRounds_spec]
  rfl

theorem qsOut_map_trace (resolve : String → MediaKind → Option RFile) (rn cat : String)
    (qs : List SiqQuestion) (sufs : Nat → String) (n : Nat) :
    (qsOut resolve rn cat qs sufs n).map (fun q => (q.round, q.category, q.score)) =
      qs.map (fun q => (rn, cat, resolveScore q)) := by
  induction qs generalizing n with
  | nil => rfl
  | cons q rest ih =>
    simp only [qsOut, List.map_cons, ih (n + 1)]
    rfl

theorem themesOut_map_trace (resolve : String → MediaKind → Option RFile) (rn : String)
    (ts : List SiqTheme) (sufs : Nat → String) (n : Nat) :
    (themesOut resolve rn ts sufs n).map (fun q => (q.round, q.category, q.score)) =
      (ts.map (fun t => t.questions.map (fun q => (rn, t.name, resolveScore q)))).flatten := by
  induction ts generalizing n with
  | nil => rfl
  | cons t rest ih =>
    simp only [themesOut, List.map_cons, List.map_append, List.flatten_cons,
      qsOut_map_trace, ih]

theorem roundsOut_map_trace (resolve : String → MediaKind → Option RFile)
    (rs : List SiqRound) (sufs : Nat → String) (n : Nat) :
    (roundsOut resolve rs sufs n).map (fun q => (q.round, q.category, q.score)) =
      (rs.map (fun r =>
        (r.themes.map (fun t => t.questions.map (fun q => (r.name, t.name, resolveScore q)))).flatten)).flatten := by
  induction rs generalizing n with
  | nil => rfl
  | cons r rest ih =>
    simp only [roundsOut, List.map_cons, List.map_append, List.flatten_cons,
      themesOut_map_trace, ih]

/-- C9: the emitted question list preserves source document order — rounds in
the order they occur in the document, and themes and questions in document
order within them: the (round, category, score) trace of the output equals the
flattened document-order trace of the package. -/
theorem c9_document_order_preserved (resolve : String → MediaKind → Option RFile)
    (pkg : SiqPackage) (sufs : Nat → String) :
    (processPackage resolve pkg sufs).questions.map (fun q => (q.round, q.category, q.score)) =
      (pkg.rounds.map (fun r =>
        (r.themes.map (fun t =>
          t.questions.map (fun q => (r.name, t.name, resolveScore q)))).flatten)).flatten := by
  rw [processPackage_questions, roundsOut_map_trace]

theorem mkQuestion_id (resolve : String → MediaKind → Option RFile) (rn cat : String)
    (q : SiqQuestion) (suffix : String) :
    (mkQuestion resolve rn cat q suffix).1.id =
      filterIdChars (rn ++ "_" ++ cat ++ "_" ++ toString (resolveScore q) ++ "_" ++ suffix) :=
  rfl

/-- The document-order flattening of a package into
(round name, category, question) triples. -/
def flatQs (rs : List SiqRound) : List (String × String × SiqQuestion) :=
  (rs.map (fun r =>
    (r.themes.map (fun t => t.questions.map (fun q => (r.name, t.name, q)))).flatten)).flatten

/-- The ids generated along a triple list, consuming one suffix per question
starting at index `n`. -/
def idsFrom : List (String × String × SiqQuestion) → (Nat → String) → Nat → List String
  | [], _, _ => []
  | (rn, cat, q) :: rest, sufs, n =>
    filterIdChars (rn ++ "_" ++ cat ++ "_" ++ toString (resolveScore q) ++ "_" ++ sufs n) ::
      idsFrom rest sufs (n + 1)

theorem filterIdChars_append (x y : String) :
    filterIdChars (x ++ y) = filterIdChars x ++ filterIdChars y := by
  apply String.ext
  simp [filterIdChars, String.data_append, List.filter_append]

theorem filterIdChars_of_all {s : String} (h : ∀ c ∈ s.data, isIdChar c = true) :
    filterIdChars s = s := by
  apply String.ext
  simp [filterIdChars, List.filter_eq_self.mpr h]

theorem idsFrom_append (a b : List (String × String × SiqQuestion)) (sufs : Nat → String)
    (n : Nat) :
    idsFrom (a ++ b) sufs n = idsFrom a sufs n ++ idsFrom b sufs (n + a.length) := by
  induction a generalizing n with
  | nil => simp [idsFrom]
  | cons x a' ih =>
    obtain ⟨rn, cat, q⟩ := x
    simp only [List.cons_append, idsFrom, List.length_cons, List.append_eq]
    rw [ih (n + 1)]
    have harith : n + 1 + a'.length = n + (a'.length + 1) := by omega
    rw [harith]

theorem qsOut_ids (resolve : String → MediaKind → Option RFile) (rn cat : String)
    (qs : List SiqQuestion) (sufs : Nat → String) (n : Nat) :
    (qsOut resolve rn cat qs sufs n).map Question.id =
      idsFrom (qs.map (fun q => (rn, cat, q))) sufs n := by
  induction qs generalizing n with
  | nil => rfl
  | cons q rest ih =>
    simp only [qsOut, List.map_cons, idsFrom, ih (n + 1)]
    rfl

theorem themesOut_ids (resolve : String → MediaKind → Option RFile) (rn : String)
    (ts : List SiqTheme) (sufs : Nat → String) (n : Nat) :
    (themesOut resolve rn ts sufs n).map Question.id =
      idsFrom ((ts.map (fun t => t.questions.map (fun q => (rn, t.name, q)))).flatten) sufs n := by
  induction ts generalizing n with
  | nil => rfl
  | cons t rest ih =>
    simp only [themesOut, List.map_cons, List.map_append, List.flatten_cons, qsOut_ids, ih,
      idsFrom_append, List.length_map]

theorem roundsOut_ids (resolve : String → MediaKind → Option RFile) (rs : List SiqRound)
    (sufs : Nat → String) (n : Nat) :
    (roundsOut resolve rs sufs n).map Question.id = idsFrom (flatQs rs) sufs n := by
  induction rs generalizing n with
  | nil => rfl
  | cons r rest ih =>
    simp only [roundsOut, flatQs, List.map_cons, List.map_append, List.flatten_cons,
      themesOut_ids, ih, idsFrom_append]
    have hlen : ((r.themes.map (fun t => t.questions.map (fun q => (r.name, t.name, q)))).flatten).length = roundCount r := by
      simp only [List.length_flatten, List.map_map, roundCount]
      congr 1
      exact List.map_congr_left (fun t _ => by simp [Function.comp])
    rw [hlen]

theorem idsFrom_mem {sufs : Nat → String} :
    ∀ (l : List (String × String × SiqQuestion)) (n : Nat),
      (∀ m, n ≤ m → m < n + l.length → ∀ c ∈ (sufs m).data, isIdChar c = true) →
      ∀ y ∈ idsFrom l sufs n, ∃ m A, n ≤ m ∧ m < n + l.length ∧ y = A ++ sufs m := by
  intro l
  induction l with
  | nil =>
    intro n _ y hy
    simp [idsFrom] at hy
  | cons x rest ih =>
    obtain ⟨rn, cat, q⟩ := x
    intro n hchar y hy
    simp only [List.length_cons] at hchar ⊢
    rcases List.mem_cons.mp hy with hy | hy
    · refine ⟨n, filterIdChars (rn ++ "_" ++ cat ++ "_" ++ toString (resolveScore q) ++ "_"),
        le_refl n, by omega, ?_⟩
      rw [hy, filterIdChars_append,
        filterIdChars_of_all (hchar n (le_refl n) (by omega))]
    · obtain ⟨m, A, hm1, hm2, hyA⟩ := ih (n + 1)
        (fun m h1 h2 => hchar m (by omega) (by omega)) y hy
      exact ⟨m, A, by omega, by omega, hyA⟩

theorem idsFrom_nodup {sufs : Nat → String} :
    ∀ (l : List (String × String × SiqQuestion)) (n : Nat),
      (∀ m, n ≤ m → m < n + l.length → (sufs m).length = 5) →
      (∀ m, n ≤ m → m < n + l.length → ∀ c ∈ (sufs m).data, isIdChar c = true) →
      (∀ m m', n ≤ m → m < n + l.length → n ≤ m' → m' < n + l.length →
        sufs m = sufs m' → m = m') →
      (idsFrom l sufs n).Nodup := by
  intro l
  induction l with
  | nil => intro n _ _ _; simp [idsFrom]
  | cons x rest ih =>
    obtain ⟨rn, cat, q⟩ := x
    intro n hlen hchar hinj
    simp only [List.length_cons] at hlen hchar hinj
    rw [idsFrom, List.nodup_cons]
    constructor
    · intro hy
      obtain ⟨m, A, hm1, hm2, hyA⟩ := idsFrom_mem rest (n + 1)
        (fun m h1 h2 => hchar m (by omega) (by omega)) _ hy
      have hhead :
          filterIdChars (rn ++ "_" ++ cat ++ "_" ++ toString (resolveScore q) ++ "_" ++ sufs n) =
            filterIdChars (rn ++ "_" ++ cat ++ "_" ++ toString (resolveScore q) ++ "_") ++
              sufs n := by
        rw [filterIdChars_append, filterIdChars_of_all (hchar n (le_refl n) (by omega))]
      rw [hhead] at hyA
      have hdata := congrArg String.data hyA
      rw [String.data_append, String.data_append] at hdata
      have hlens : (sufs n).data.length = (sufs m).data.length := by
        have h1 : (sufs n).length = 5 := hlen n (le_refl n) (by omega)
        have h2 : (sufs m).length = 5 := hlen m (by omega) (by omega)
        have e1 : (sufs n).length = (sufs n).data.length := rfl
        have e2 : (sufs m).length = (sufs m).data.length := rfl
        omega
      have hsuf : (sufs n).data = (sufs m).data := (List.append_inj' hdata hlens).2
      have : n = m := hinj n m (le_refl n) (by omega) (by omega) (by omega)
        (String.ext hsuf)
      omega
    · exact ih (n + 1) (fun m h1 h2 => hlen m (by omega) (by omega))
        (fun m h1 h2 => hchar m (by omega) (by omega))
        (fun m m' h1 h2 h3 h4 => hinj m m' (by omega) (by omega) (by omega) (by omega))

/-- C5 counterexample: with colliding random suffixes two questions of the
same round, category and score get the *same* id, so the emitted ids are not
always pairwise distinct. -/
theorem c5_counterexample :
    ¬ ((processPackage (fun _ _ => none)
        ⟨[⟨"R", none, [⟨"C", [⟨none, none, none, none, none, none, none, none, [], none⟩,
          ⟨none, none, none, none, none, none, none, none, [], none⟩]⟩]⟩]⟩
        (fun _ => "aaaaa")).questions.map Question.id).Nodup := by
  decide

/-- C5 (amended): provided the five-character `[a-z0-9]` random suffixes drawn
during the parse are pairwise distinct (as many as there are questions), the
ids of the emitted questions — built from round+category+score plus the suffix
and stripped of characters outside `[A-Za-z0-9_-]` — are pairwise distinct. -/
theorem c5_unique_ids_of_distinct_suffixes (resolve : String → MediaKind → Option RFile)
    (pkg : SiqPackage) (sufs : Nat → String)
    (hlen : ∀ m < (flatQs pkg.rounds).length, (sufs m).length = 5)
    (hchar : ∀ m < (flatQs pkg.rounds).length, ∀ c ∈ (sufs m).data, isIdChar c = true)
    (hinj : ∀ m < (flatQs pkg.rounds).length, ∀ m' < (flatQs pkg.rounds).length,
      sufs m = sufs m' → m = m') :
    ((processPackage resolve pkg sufs).questions.map Question.id).Nodup := by
  rw [processPackage_questions, roundsOut_ids]
  exact idsFrom_nodup (flatQs pkg.rounds) 0
    (fun m _ h2 => hlen m (by omega))
    (fun m _ h2 => hchar m (by omega))
    (fun m m' _ h2 _ h4 => hinj m (by omega) m' (by omega))

/-- C5 witness: with two distinct suffixes a two-question package gets
pairwise-distinct ids. -/
theorem c5_unique_ids_of_distinct_suffixes_witness :
    ((processPackage (fun _ _ => none)
        ⟨[⟨"R", none, [⟨"C", [⟨none, none, none, none, none, none, none, none, [], none⟩,
          ⟨none, none, none, none, none, none, none, none, [], none⟩]⟩]⟩]⟩
        (fun m => if m = 0 then "aaaaa" else "bbbbb")).questions.map Question.id).Nodup := by
  exact c5_unique_ids_of_distinct_suffixes (fun _ _ => none)
    ⟨[⟨"R", none, [⟨"C", [⟨none, none, none, none, none, none, none, none, [], none⟩,
      ⟨none, none, none, none, none, none, none, none, [], none⟩]⟩]⟩]⟩
    (fun m => if m = 0 then "aaaaa" else "bbbbb")
    (by decide) (by decide) (by decide)

/-! ## Media-resolver variant stability (claim C2, corrected)

The amended statement is proved for references over a well-behaved ASCII
fragment: lowercase letters, digits, `-`, `_`, `.`, spaces and `+` signs,
with no two adjacent space/plus characters and neither at the edges. -/

/-- A space or plus character (the characters `+`↔` ` substitution touches). -/
def spB (c : Char) : Bool := c == ' ' || c == '+'

/-- No two adjacent characters both satisfy `p`. -/
def noAdjP (p : Char → Bool) : List Char → Bool
  | a :: b :: rest => (!(p a && p b)) && noAdjP p (b :: rest)
  | _ => true

/-- The first character (if any) is not a space/plus. -/
def headNotSP : List Char → Bool
  | [] => true
  | c :: _ => !spB c

/-- The character fragment of well-behaved references. -/
def simpleCharB (c : Char) : Bool :=
  (decide (97 ≤ c.toNat) && decide (c.toNat ≤ 122)) ||
  (decide (48 ≤ c.toNat) && decide (c.toNat ≤ 57)) ||
  c == '-' || c == '_' || c == '.' || c == ' ' || c == '+'

/-- A well-behaved reference: nonempty, over the simple fragment, with no two
adjacent space/plus characters and no space/plus at either edge. -/
def SimpleRef (r : String) : Prop :=
  r.data ≠ [] ∧ (∀ c ∈ r.data, simpleCharB c = true) ∧ noAdjP spB r.data = true ∧
  headNotSP r.data = true ∧ headNotSP r.data.reverse = true

theorem simpleChar_lt {c : Char} (h : simpleCharB c = true) : c.toNat < 128 := by
  simp only [simpleCharB, Bool.or_eq_true, Bool.and_eq_true, decide_eq_true_eq,
    beq_iff_eq] at h
  rcases h with ((((((h | h) | h) | h) | h) | h) | h)
  all_goals first | omega | (subst h; decide)

theorem charFactBundle :
    ∀ n < 128, simpleCharB (Char.ofNat n) = true →
      Char.toLower (Char.ofNat n) = Char.ofNat n ∧
      (isWs (Char.ofNat n) = true → Char.ofNat n = ' ') ∧
      Char.ofNat n ≠ '@' ∧ Char.ofNat n ≠ '%' ∧ isSlash (Char.ofNat n) = false ∧
      (spB (Char.ofNat n) = false → isUnreservedJS (Char.ofNat n) = true) ∧
      (spB (Char.ofNat n) = true → isUnreservedJS (Char.ofNat n) = false) ∧
      Char.ofNat n ≠ '(' ∧ Char.ofNat n ≠ ')' := by
  decide

theorem simpleChar_fact {c : Char} (h : simpleCharB c = true) :
    Char.toLower c = c ∧ (isWs c = true → c = ' ') ∧ c ≠ '@' ∧ c ≠ '%' ∧
    isSlash c = false ∧ (spB c = false → isUnreservedJS c = true) ∧
    (spB c = true → isUnreservedJS c = false) ∧ c ≠ '(' ∧ c ≠ ')' := by
  have hlt := simpleChar_lt h
  have hc : Char.ofNat c.toNat = c := Char.ofNat_toNat c
  have hb := charFactBundle c.toNat hlt (by rw [hc]; exact h)
  rwa [hc] at hb

theorem charSubBundle :
    ∀ n < 128, simpleCharB (Char.ofNat n) = true →
      simpleCharB (psChar (Char.ofNat n)) = true ∧
      spB (psChar (Char.ofNat n)) = spB (Char.ofNat n) ∧
      simpleCharB (spChar (Char.ofNat n)) = true ∧
      spB (spChar (Char.ofNat n)) = spB (Char.ofNat n) ∧
      isWs (spChar (Char.ofNat n)) = false := by
  decide

theorem simpleChar_sub {c : Char} (h : simpleCharB c = true) :
    simpleCharB (psChar c) = true ∧ spB (psChar c) = spB c ∧
    simpleCharB (spChar c) = true ∧ spB (spChar c) = spB c ∧
    isWs (spChar c) = false := by
  have hlt := simpleChar_lt h
  have hc : Char.ofNat c.toNat = c := Char.ofNat_toNat c
  have hb := charSubBundle c.toNat hlt (by rw [hc]; exact h)
  rwa [hc] at hb

theorem noAdjP_tail {p : Char → Bool} {c : Char} {rest : List Char}
    (h : noAdjP p (c :: rest) = true) : noAdjP p rest = true := by
  cases rest with
  | nil => rfl
  | cons d t => exact (Bool.and_eq_true_iff.mp h).2

theorem noAdjP_of_imp {p q : Char → Bool} :
    ∀ {l : List Char}, (∀ c ∈ l, p c = true → q c = true) → noAdjP q l = true →
      noAdjP p l = true := by
  intro l
  induction l with
  | nil => intro _ _; rfl
  | cons a rest ih =>
    intro himp hq
    cases rest with
    | nil => rfl
    | cons b t =>
      rw [noAdjP, Bool.and_eq_true]
      obtain ⟨hq1, hq2⟩ := Bool.and_eq_true_iff.mp hq
      refine ⟨?_, ih (fun c hc => himp c (List.mem_cons_of_mem _ hc)) hq2⟩
      by_cases hpa : p a = true
      · by_cases hpb : p b = true
        · have := himp a (List.mem_cons_self _ _) hpa
          have := himp b (List.mem_cons_of_mem _ (List.mem_cons_self _ _)) hpb
          simp_all
        · simp [hpb]
      · simp [hpa]

theorem noAdjP_map_pres {p : Char → Bool} {f : Char → Char} :
    ∀ {l : List Char}, (∀ c ∈ l, p (f c) = p c) → noAdjP p (l.map f) = noAdjP p l := by
  intro l
  induction l with
  | nil => intro _; rfl
  | cons a rest ih =>
    intro hpres
    cases rest with
    | nil => rfl
    | cons b t =>
      simp only [List.map_cons, noAdjP]
      rw [hpres a (List.mem_cons_self _ _),
        hpres b (List.mem_cons_of_mem _ (List.mem_cons_self _ _))]
      have := ih (fun c hc => hpres c (List.mem_cons_of_mem _ hc))
      simp only [List.map_cons] at this
      rw [this]

theorem dropWhile_eq_self_of_head {p : Char → Bool} {l : List Char}
    (h : ∀ c, l.head? = some c → p c = false) : l.dropWhile p = l := by
  cases l with
  | nil => rfl
  | cons a t =>
    rw [List.dropWhile_cons, if_neg]
    simp [h a rfl]

theorem jsTrimL_eq_self {l : List Char}
    (hh : ∀ c, l.head? = some c → isWs c = false)
    (hl : ∀ c, l.getLast? = some c → isWs c = false) : jsTrimL l = l := by
  unfold jsTrimL
  rw [dropWhile_eq_self_of_head hh,
    dropWhile_eq_self_of_head (fun c hc => hl c (by rwa [List.head?_reverse] at hc)),
    List.reverse_reverse]

theorem lowerL_eq_self {l : List Char} (h : ∀ c ∈ l, Char.toLower c = c) :
    lowerL l = l := by
  unfold lowerL
  conv_rhs => rw [← List.map_id l]
  exact List.map_congr_left h

/-- The first character (if any) is not whitespace. -/
def headNotWsB : List Char → Bool
  | [] => true
  | c :: _ => !isWs c

theorem collapseAux_eq_self :
    ∀ (l : List Char) (b : Bool), (∀ c ∈ l, isWs c = true → c = ' ') →
      noAdjP isWs l = true → (b = true → headNotWsB l = true) → collapseAux b l = l := by
  intro l
  induction l with
  | nil => intro b _ _ _; rfl
  | cons c rest ih =>
    intro b hsp hadj hb
    by_cases hws : isWs c = true
    · have hc : c = ' ' := hsp c (List.mem_cons_self _ _) hws
      have hbf : b = false := by
        cases b with
        | false => rfl
        | true =>
          have := hb rfl
          simp [headNotWsB, hws] at this
      subst hbf
      rw [collapseAux, if_pos hws, if_neg (by simp)]
      have hrest : collapseAux true rest = rest := by
        refine ih true (fun d hd => hsp d (List.mem_cons_of_mem _ hd)) (noAdjP_tail hadj) ?_
        intro _
        cases rest with
        | nil => rfl
        | cons d t =>
          have hpair := (Bool.and_eq_true_iff.mp hadj).1
          rw [hws] at hpair
          simp only [Bool.true_and, Bool.not_eq_true'] at hpair
          simp [headNotWsB, hpair]
      rw [hrest, hc]
    · rw [collapseAux, if_neg hws]
      rw [ih false (fun d hd => hsp d (List.mem_cons_of_mem _ hd)) (noAdjP_tail hadj)
        (fun h => nomatch h)]

theorem mkStr_ne_empty {l : List Char} (h : l ≠ []) : (⟨l⟩ : String) ≠ "" := by
  intro he
  exact h (congrArg String.data he)

theorem normId {l : List Char} (hne : l ≠ [])
    (hlow : ∀ c ∈ l, Char.toLower c = c)
    (hsp : ∀ c ∈ l, isWs c = true → c = ' ')
    (hadj : noAdjP isWs l = true)
    (hh : ∀ c, l.head? = some c → isWs c = false)
    (hl : ∀ c, l.getLast? = some c → isWs c = false) :
    normalizeSearch ⟨l⟩ = ⟨l⟩ := by
  unfold normalizeSearch
  rw [if_neg (mkStr_ne_empty hne)]
  show (⟨collapseWsL (lowerL (jsTrimL l))⟩ : String) = ⟨l⟩
  rw [jsTrimL_eq_self hh hl, lowerL_eq_self hlow]
  unfold collapseWsL
  rw [collapseAux_eq_self l false hsp hadj (fun h => nomatch h)]

theorem pmAdd2_pres {pm : List (String × String)} {e : ZipEntry} {k : String}
    (h : alGet pm k = some e.path) : alGet (pmAdd2 pm e) k = some e.path := by
  unfold pmAdd2
  split
  · split
    · exact alGet_alSet_same_value _ _ _ _ h
    · exact h
  · exact h

theorem pmAdd3_pres {pm : List (String × String)} {e : ZipEntry} {k : String}
    (h : alGet pm k = some e.path) : alGet (pmAdd3 pm e) k = some e.path := by
  unfold pmAdd3
  by_cases hd : normalizeSearch ⟨encSlashL e.path.data⟩ ≠ normalizeSearch e.path
  · rw [if_pos hd]
    exact alGet_alSet_same_value _ _ _ _ h
  · rw [if_neg hd]
    exact h

theorem buildIndex_single (e : ZipEntry) (he : e.isDir = false) :
    buildIndex [e] = ⟨pmAdd3 (pmAdd2 (pmAdd1 [] e) e) e, bmAdd [] e⟩ := by
  unfold buildIndex
  rw [List.foldl_cons, List.foldl_nil]
  unfold indexEntry
  rw [if_neg (by simp [he])]

theorem pathMap_single_get (e : ZipEntry) (he : e.isDir = false) :
    alGet (buildIndex [e]).pathMap (normalizeSearch e.path) = some e.path := by
  rw [buildIndex_single e he]
  exact pmAdd3_pres (pmAdd2_pres (alGet_alSet_self _ _ _))

theorem baseMap_single_get (e : ZipEntry) (he : e.isDir = false) (K : String)
    (hK : K = normalizeSearch (basenameOr e.path e.path) ∨
      K = subPlusToSpace (normalizeSearch (basenameOr e.path e.path)) ∨
      K = subSpaceToPlus (normalizeSearch (basenameOr e.path e.path))) :
    alGet (buildIndex [e]).baseMap K = some e.path := by
  rw [buildIndex_single e he]
  show alGet (bmAdd [] e) K = some e.path
  unfold bmAdd
  rcases hK with hK | hK | hK <;> subst hK
  · exact alGet_alSet_same_value _ _ _ _ (alGet_alSet_same_value _ _ _ _
      (alGet_alSet_self _ _ _))
  · exact alGet_alSet_same_value _ _ _ _ (alGet_alSet_self _ _ _)
  · exact alGet_alSet_self _ _ _

theorem pmAdd_snd_all (e : ZipEntry) :
    ∀ kv ∈ pmAdd3 (pmAdd2 (pmAdd1 [] e) e) e, kv.2 = e.path := by
  have h1 : ∀ kv ∈ pmAdd1 ([] : List (String × String)) e, kv.2 = e.path :=
    alSet_snd_all _ _ _ (by intro kv hkv; simp at hkv)
  have h2 : ∀ kv ∈ pmAdd2 (pmAdd1 [] e) e, kv.2 = e.path := by
    unfold pmAdd2
    split
    · split
      · exact alSet_snd_all _ _ _ h1
      · exact h1
    · exact h1
  unfold pmAdd3
  by_cases hd : normalizeSearch ⟨encSlashL e.path.data⟩ ≠ normalizeSearch e.path
  · rw [if_pos hd]
    exact alSet_snd_all _ _ _ h2
  · rw [if_neg hd]
    exact h2

theorem bmAdd_snd_all (e : ZipEntry) : ∀ kv ∈ bmAdd [] e, kv.2 = e.path := by
  unfold bmAdd
  exact alSet_snd_all _ _ _ (alSet_snd_all _ _ _ (alSet_snd_all _ _ _
    (by intro kv hkv; simp at hkv)))

theorem entryAt_single (e : ZipEntry) (he : e.isDir = false) :
    entryAt [e] e.path = some e := by
  simp [entryAt, List.find?, he]

theorem stage1Find_value {e : ZipEntry} (he : e.isDir = false) {k : MediaKind}
    {cands : List String} {p : String}
    (h : stage1Find [e] (buildIndex [e]) k cands = some p) : p = e.path := by
  obtain ⟨pf, _, hinner⟩ := exists_of_findSome?_some h
  obtain ⟨cand, _, hfc⟩ := exists_of_findSome?_some hinner
  cases hal : alGet (buildIndex [e]).pathMap (normalizeSearch (pf ++ cand)) with
  | none =>
    rw [hal] at hfc
    exact Option.noConfusion hfc
  | some p' =>
    rw [hal] at hfc
    have hfc' : (if (entryAt [e] p').isSome = true then some p' else none) = some p := hfc
    have hp' : p' = e.path := by
      rw [buildIndex_single e he] at hal
      exact alGet_val_of_snd_all _ _ _ (pmAdd_snd_all e) hal
    by_cases hs : (entryAt [e] p').isSome
    · rw [if_pos hs] at hfc'
      rw [← Option.some_inj.mp hfc']
      exact hp'
    · rw [if_neg hs] at hfc'
      exact Option.noConfusion hfc'

theorem stage2Find_value {e : ZipEntry} (he : e.isDir = false) {cands : List String}
    {p : String} (h : stage2Find (buildIndex [e]) cands = some p) : p = e.path := by
  obtain ⟨cand, _, hfc⟩ := exists_of_findSome?_some h
  rw [buildIndex_single e he] at hfc
  exact alGet_val_of_snd_all _ _ _ (bmAdd_snd_all e) hfc

theorem mkRFile_single (e : ZipEntry) (he : e.isDir = false) (baseName : String) :
    mkRFile [e] e.path baseName =
      some ⟨baseName, e.content, getMimeType e.path e.blobType⟩ := by
  rw [mkRFile, entryAt_single e he]
  rfl

theorem extract_single (e : ZipEntry) (he : e.isDir = false) (fname : String)
    (k : MediaKind) (hne : ¬ fname = "")
    (h : stage1Find [e] (buildIndex [e]) k (candidatesOf fname) ≠ none ∨
      stage2Find (buildIndex [e]) (candidatesOf fname) ≠ none) :
    ∃ f, extractFile [e] (buildIndex [e]) fname k = some f ∧ f.content = e.content := by
  cases hs1 : stage1Find [e] (buildIndex [e]) k (candidatesOf fname) with
  | some p =>
    have hp := stage1Find_value he hs1
    subst hp
    unfold extractFile
    rw [if_neg hne]
    simp only [hs1, mkRFile_single e he]
    exact ⟨_, rfl, rfl⟩
  | none =>
    cases hs2 : stage2Find (buildIndex [e]) (candidatesOf fname) with
    | some p =>
      have hp := stage2Find_value he hs2
      subst hp
      unfold extractFile
      rw [if_neg hne]
      simp only [hs1, hs2, mkRFile_single e he]
      exact ⟨_, rfl, rfl⟩
    | none =>
      rcases h with h | h
      · exact absurd hs1 h
      · exact absurd hs2 h

theorem stage1_hit (e : ZipEntry) (he : e.isDir = false) (k : MediaKind)
    (cands : List String) (cand : String) (hc : cand ∈ cands) (p : String)
    (hp : p ∈ prefixesFor k)
    (hkey : alGet (buildIndex [e]).pathMap (normalizeSearch (p ++ cand)) = some e.path) :
    stage1Find [e] (buildIndex [e]) k cands ≠ none := by
  apply findSome?_ne_none _ _ p hp
  apply findSome?_ne_none _ _ cand hc
  rw [hkey]
  have hif : (if (entryAt [e] e.path).isSome = true then some e.path else none) ≠ none := by
    rw [if_pos (by rw [entryAt_single e he]; rfl)]
    exact Option.some_ne_none _
  exact hif

theorem stage2_hit (e : ZipEntry) (cands : List String)
    (cand : String) (hc : cand ∈ cands)
    (hkey : alGet (buildIndex [e]).baseMap (normalizeSearch (basenameOr cand cand)) =
      some e.path) :
    stage2Find (buildIndex [e]) cands ≠ none := by
  apply findSome?_ne_none _ _ cand hc
  rw [hkey]
  exact Option.some_ne_none _

theorem head?_mem {l : List Char} {c : Char} (h : l.head? = some c) : c ∈ l := by
  cases l with
  | nil => cases h
  | cons a t =>
    simp only [List.head?_cons, Option.some_inj] at h
    exact h ▸ List.mem_cons_self _ _

theorem getLast?_mem {l : List Char} {c : Char} (h : l.getLast? = some c) : c ∈ l := by
  rw [← List.head?_reverse] at h
  exact List.mem_reverse.mp (head?_mem h)

theorem headNotSP_spB {l : List Char} {c : Char} (h : headNotSP l = true)
    (hc : l.head? = some c) : spB c = false := by
  cases l with
  | nil => cases hc
  | cons a t =>
    simp only [List.head?_cons, Option.some_inj] at hc
    subst hc
    simpa [headNotSP] using h

theorem strip_id {s : String} (h : ∀ c, s.data.head? = some c → c ≠ '@') :
    stripLeadingAt s = s := by
  unfold stripLeadingAt
  split
  next c rest heq => rw [if_neg (h c (by rw [heq]; rfl))]
  next => rfl

theorem jsTrim_id {s : String} (hh : ∀ c, s.data.head? = some c → isWs c = false)
    (hl : ∀ c, s.data.getLast? = some c → isWs c = false) : jsTrim s = s := by
  unfold jsTrim
  rw [jsTrimL_eq_self hh hl]

theorem foldl_no_sep (sep : Char → Bool) :
    ∀ (l : List Char), (∀ c ∈ l, sep c = false) → ∀ acc : List Char,
      l.foldl (fun acc c => if sep c then [] else acc ++ [c]) acc = acc ++ l := by
  intro l
  induction l with
  | nil => intro _ acc; simp
  | cons c t ih =>
    intro h acc
    rw [List.foldl_cons, if_neg (by simp [h c (List.mem_cons_self _ _)]),
      ih (fun d hd => h d (List.mem_cons_of_mem _ hd)) (acc ++ [c])]
    simp

theorem basename_id {s : String} (hslash : ∀ c ∈ s.data, isSlash c = false)
    (hne : s.data ≠ []) (f : String) : basenameOr s f = s := by
  unfold basenameOr lastSeg
  rw [foldl_no_sep isSlash s.data hslash []]
  simp only [List.nil_append]
  rw [if_neg hne]

theorem prefix_fold_empty {p : String} {k : MediaKind} (hp : p ∈ prefixesFor k) :
    p.data.foldl (fun acc c => if isSlash c then [] else acc ++ [c]) [] = [] := by
  cases k <;> simp only [prefixesFor, kindName, List.mem_cons, List.mem_singleton,
    List.not_mem_nil, or_false] at hp <;>
    rcases hp with rfl | rfl | rfl | rfl | rfl | rfl | rfl <;> decide

theorem basename_under_prefix {p r : String} {k : MediaKind} (hp : p ∈ prefixesFor k)
    (hslash : ∀ c ∈ r.data, isSlash c = false) (hne : r.data ≠ []) (f : String) :
    basenameOr (p ++ r) f = r := by
  unfold basenameOr lastSeg
  rw [String.data_append, List.foldl_append, prefix_fold_empty hp,
    foldl_no_sep isSlash r.data hslash []]
  simp only [List.nil_append]
  rw [if_neg hne]

theorem decPercentL_cons_ne {c : Char} {rest : List Char} (h : ¬ c = '%') :
    decPercentL (c :: rest) = (decPercentL rest).map (fun r => c :: r) := by
  rw [decPercentL.eq_def]
  simp only [if_neg h]

theorem decPercentL_no_pct :
    ∀ {l : List Char}, (∀ c ∈ l, c ≠ '%') → decPercentL l = some l := by
  intro l
  induction l with
  | nil => intro _; rfl
  | cons c rest ih =>
    intro h
    rw [decPercentL_cons_ne (h c (List.mem_cons_self _ _)),
      ih (fun d hd => h d (List.mem_cons_of_mem _ hd))]
    rfl

theorem decPercent_simple {r : String} (h : ∀ c ∈ r.data, simpleCharB c = true) :
    decPercent r = some r := by
  unfold decPercent
  rw [decPercentL_no_pct (fun c hc => (simpleChar_fact (h c hc)).2.2.2.1)]
  rfl

theorem hexFact : ∀ n < 16, hexVal (hexDigitChar n) = some n := by decide

theorem hexCharFact :
    ∀ n < 16, isWs (hexDigitChar n) = false ∧ hexDigitChar n ≠ '@' := by decide

theorem decPercentL_pct (x y : Char) (rest : List Char) :
    decPercentL ('%' :: x :: y :: rest) = decTriple x y (decPercentL rest) := rfl

theorem decTriple_eq {x y : Char} {a b : Nat} (hx : hexVal x = some a)
    (hy : hexVal y = some b) (rec : Option (List Char)) :
    decTriple x y rec =
      if 16 * a + b < 128 then rec.map (fun r => Char.ofNat (16 * a + b) :: r) else none := by
  unfold decTriple
  rw [hx, hy]

theorem encFullL_cons (c : Char) (t : List Char) :
    encFullL (c :: t) =
      (if c == '(' then ['%', '2', '8']
        else if c == ')' then ['%', '2', '9']
        else if c == '/' then ['/']
        else if isUnreservedJS c then [c]
        else pctChar c) ++ encFullL t := by
  simp [encFullL]

theorem encFullL_simple_cons {c : Char} (t : List Char) (hc : simpleCharB c = true) :
    encFullL (c :: t) =
      (if isUnreservedJS c then [c] else pctChar c) ++ encFullL t := by
  have hf := simpleChar_fact hc
  rw [encFullL_cons, if_neg (by simp [hf.2.2.2.2.2.2.2.1]),
    if_neg (by simp [hf.2.2.2.2.2.2.2.2]),
    if_neg (by have := hf.2.2.2.2.1; simp [isSlash] at this; simp [this.1])]

theorem dec_encFull :
    ∀ {l : List Char}, (∀ c ∈ l, simpleCharB c = true) →
      decPercentL (encFullL l) = some l := by
  intro l
  induction l with
  | nil => intro _; rfl
  | cons c t ih =>
    intro h
    have hc := h c (List.mem_cons_self _ _)
    have hf := simpleChar_fact hc
    have hih := ih (fun d hd => h d (List.mem_cons_of_mem _ hd))
    rw [encFullL_simple_cons t hc]
    by_cases hu : isUnreservedJS c = true
    · rw [if_pos hu, List.singleton_append, decPercentL_cons_ne hf.2.2.2.1, hih]
      rfl
    · rw [if_neg hu]
      have hlt := simpleChar_lt hc
      have hmod : c.toNat % 256 = c.toNat := Nat.mod_eq_of_lt (by omega)
      show decPercentL ('%' :: hexDigitChar (c.toNat % 256 / 16) ::
        hexDigitChar (c.toNat % 256 % 16) :: encFullL t) = some (c :: t)
      rw [decPercentL_pct, hmod,
        decTriple_eq (hexFact (c.toNat / 16) (by omega)) (hexFact (c.toNat % 16) (by omega)),
        Nat.div_add_mod, if_pos hlt, hih]
      simp [Char.ofNat_toNat]

theorem encFullL_facts {l : List Char} (h : ∀ c ∈ l, simpleCharB c = true) :
    ∀ c' ∈ encFullL l, isWs c' = false ∧ c' ≠ '@' := by
  induction l with
  | nil => intro c' hc'; cases hc'
  | cons c t ih =>
    intro c' hc'
    have hc := h c (List.mem_cons_self _ _)
    have hf := simpleChar_fact hc
    rw [encFullL_simple_cons t hc] at hc'
    rcases List.mem_append.mp hc' with hm | hm
    · by_cases hu : isUnreservedJS c = true
      · rw [if_pos hu] at hm
        simp only [List.mem_singleton] at hm
        subst hm
        have hsp : spB c' = false := by
          by_cases hs : spB c' = true
          · rw [hf.2.2.2.2.2.2.1 hs] at hu
            cases hu
          · simpa using hs
        refine ⟨?_, hf.2.2.1⟩
        by_cases hw : isWs c' = true
        · rw [hf.2.1 hw] at hsp
          cases hsp
        · simpa using hw
      · rw [if_neg hu] at hm
        have hlt := simpleChar_lt hc
        have hmod : c.toNat % 256 = c.toNat := Nat.mod_eq_of_lt (by omega)
        simp only [pctChar, hmod, List.mem_cons, List.not_mem_nil, or_false] at hm
        rcases hm with rfl | rfl | rfl
        · exact ⟨by decide, by decide⟩
        · exact hexCharFact (c.toNat / 16) (by omega)
        · exact hexCharFact (c.toNat % 16) (by omega)
    · exact ih (fun d hd => h d (List.mem_cons_of_mem _ hd)) c' hm

theorem encFullL_ne_nil {l : List Char} (hne : l ≠ []) (h : ∀ c ∈ l, simpleCharB c = true) :
    encFullL l ≠ [] := by
  cases l with
  | nil => exact absurd rfl hne
  | cons c t =>
    rw [encFullL_simple_cons t (h c (List.mem_cons_self _ _))]
    intro habs
    rcases List.append_eq_nil.mp habs with ⟨h1, _⟩
    by_cases hu : isUnreservedJS c = true
    · rw [if_pos hu] at h1
      cases h1
    · rw [if_neg hu] at h1
      cases h1

theorem mem_setAddOpt_of_mem (l : List String) (o : Option String) (x : String)
    (h : x ∈ l) : x ∈ setAddOpt l o := by
  cases o with
  | none => exact h
  | some d => exact mem_setAdd_of_mem _ _ _ h

theorem cands_clean_mem (fname : String) :
    jsTrim (stripLeadingAt fname) ∈ candidatesOf fname := by
  simp only [candidatesOf]
  apply mem_setAdd_of_mem
  apply mem_setAdd_of_mem
  apply mem_setAdd_of_mem
  apply mem_setAdd_of_mem
  apply mem_setAddOpt_of_mem
  apply mem_setAddOpt_of_mem
  apply mem_setAdd_of_mem
  apply mem_setAdd_of_mem
  apply mem_setAdd_of_mem
  apply mem_setAdd_of_mem
  exact mem_setAdd_self _ _

theorem cands_dec_mem (fname d : String)
    (hd : decPercent (jsTrim (stripLeadingAt fname)) = some d) :
    d ∈ candidatesOf fname := by
  simp only [candidatesOf]
  apply mem_setAdd_of_mem
  apply mem_setAdd_of_mem
  apply mem_setAdd_of_mem
  apply mem_setAdd_of_mem
  apply mem_setAddOpt_of_mem
  rw [hd]
  exact mem_setAdd_self _ _

theorem notWs_of_notSP {c : Char} (hc : simpleCharB c = true) (hsp : spB c = false) :
    isWs c = false := by
  by_cases hw : isWs c = true
  · rw [(simpleChar_fact hc).2.1 hw] at hsp
    exact absurd hsp (by decide)
  · simpa using hw

theorem simpleRef_facts {r : String} (hr : SimpleRef r) :
    stripLeadingAt r = r ∧ jsTrim r = r ∧ normalizeSearch r = r ∧ ¬ r = "" ∧
    (∀ c ∈ r.data, isSlash c = false) ∧ basenameOr r r = r := by
  obtain ⟨hne, hchars, hadj, hhead, hlast⟩ := hr
  have hfacts := fun c hc => simpleChar_fact (hchars c hc)
  have hh : ∀ c, r.data.head? = some c → isWs c = false := fun c hc =>
    notWs_of_notSP (hchars c (head?_mem hc)) (headNotSP_spB hhead hc)
  have hl : ∀ c, r.data.getLast? = some c → isWs c = false := fun c hc =>
    notWs_of_notSP (hchars c (getLast?_mem hc))
      (headNotSP_spB hlast (by rw [List.head?_reverse]; exact hc))
  have hslash : ∀ c ∈ r.data, isSlash c = false := fun c hc => (hfacts c hc).2.2.2.2.1
  refine ⟨strip_id (fun c hc => (hfacts c (head?_mem hc)).2.2.1), jsTrim_id hh hl, ?_,
    fun h => hne (congrArg String.data h), hslash, basename_id hslash hne r⟩
  exact normId hne (fun c hc => (hfacts c hc).1) (fun c hc => (hfacts c hc).2.1)
    (noAdjP_of_imp
      (fun c hc hw => by rw [(hfacts c hc).2.1 hw]; decide) hadj)
    hh hl

theorem headNotSP_map {l : List Char} {f : Char → Char}
    (hpres : ∀ c ∈ l, spB (f c) = spB c) (h : headNotSP l = true) :
    headNotSP (l.map f) = true := by
  cases l with
  | nil => rfl
  | cons c t =>
    simp only [List.map_cons, headNotSP] at h ⊢
    rw [hpres c (List.mem_cons_self _ _)]
    exact h

theorem simpleRef_map {r : String} (hr : SimpleRef r) (f : Char → Char)
    (hpres : ∀ c, simpleCharB c = true → simpleCharB (f c) = true ∧ spB (f c) = spB c) :
    SimpleRef ⟨r.data.map f⟩ := by
  obtain ⟨hne0, hchars, hadj, hhead, hlast⟩ := hr
  refine ⟨by simpa using hne0, ?_, ?_, ?_, ?_⟩
  · intro c hc
    obtain ⟨c0, hc0, rfl⟩ := List.mem_map.mp hc
    exact (hpres c0 (hchars c0 hc0)).1
  · show noAdjP spB (r.data.map f) = true
    rw [noAdjP_map_pres (fun c hc => (hpres c (hchars c hc)).2)]
    exact hadj
  · exact headNotSP_map (fun c hc => (hpres c (hchars c hc)).2) hhead
  · show headNotSP (r.data.map f).reverse = true
    rw [← List.map_reverse]
    exact headNotSP_map (fun c hc => (hpres c (hchars c (List.mem_reverse.mp hc))).2) hlast

theorem c2_case_raw (e : ZipEntry) (p r : String) (k : MediaKind) (he : e.isDir = false)
    (hpath : e.path = p ++ r) (hp : p ∈ prefixesFor k) (hr : SimpleRef r) :
    ∃ f, extractFile [e] (buildIndex [e]) r k = some f ∧ f.content = e.content := by
  obtain ⟨hstrip, htrim, _, hne, _, _⟩ := simpleRef_facts hr
  have hm : r ∈ candidatesOf r := by
    have h0 := cands_clean_mem r
    rwa [hstrip, htrim] at h0
  have hkey : alGet (buildIndex [e]).pathMap (normalizeSearch (p ++ r)) = some e.path := by
    rw [← hpath]
    exact pathMap_single_get e he
  exact extract_single e he r k hne (Or.inl (stage1_hit e he k _ r hm p hp hkey))

theorem c2_case_enc (e : ZipEntry) (p r : String) (k : MediaKind) (he : e.isDir = false)
    (hpath : e.path = p ++ r) (hp : p ∈ prefixesFor k) (hr : SimpleRef r) :
    ∃ f, extractFile [e] (buildIndex [e]) ⟨encFullL r.data⟩ k = some f ∧
      f.content = e.content := by
  have hchars := hr.2.1
  have hvchars := encFullL_facts hchars
  have hvne : encFullL r.data ≠ [] := encFullL_ne_nil hr.1 hchars
  have hvstrip : stripLeadingAt ⟨encFullL r.data⟩ = ⟨encFullL r.data⟩ :=
    strip_id (fun c hc => (hvchars c (head?_mem hc)).2)
  have hvtrim : jsTrim ⟨encFullL r.data⟩ = ⟨encFullL r.data⟩ :=
    jsTrim_id (fun c hc => (hvchars c (head?_mem hc)).1)
      (fun c hc => (hvchars c (getLast?_mem hc)).1)
  have hdec : decPercent ⟨encFullL r.data⟩ = some r := by
    unfold decPercent
    show (decPercentL (encFullL r.data)).map _ = _
    rw [dec_encFull hchars]
    rfl
  have hm : r ∈ candidatesOf ⟨encFullL r.data⟩ :=
    cands_dec_mem _ r (by rwa [hvstrip, hvtrim])
  have hkey : alGet (buildIndex [e]).pathMap (normalizeSearch (p ++ r)) = some e.path := by
    rw [← hpath]
    exact pathMap_single_get e he
  exact extract_single e he _ k (mkStr_ne_empty hvne)
    (Or.inl (stage1_hit e he k _ r hm p hp hkey))

theorem c2_case_base (e : ZipEntry) (he : e.isDir = false) (k : MediaKind) (v : String)
    (hv : SimpleRef v)
    (hK : v = normalizeSearch (basenameOr e.path e.path) ∨
      v = subPlusToSpace (normalizeSearch (basenameOr e.path e.path)) ∨
      v = subSpaceToPlus (normalizeSearch (basenameOr e.path e.path))) :
    ∃ f, extractFile [e] (buildIndex [e]) v k = some f ∧ f.content = e.content := by
  obtain ⟨hvstrip, hvtrim, hvnorm, hvne, _, hvbase⟩ := simpleRef_facts hv
  have hm : v ∈ candidatesOf v := by
    have h0 := cands_clean_mem v
    rwa [hvstrip, hvtrim] at h0
  have hkey2 : alGet (buildIndex [e]).baseMap (normalizeSearch (basenameOr v v)) =
      some e.path := by
    rw [hvbase, hvnorm]
    exact baseMap_single_get e he v hK
  exact extract_single e he v k hvne (Or.inr (stage2_hit e _ v hm hkey2))

/-- C2 counterexample, in two parts. First, an archive holding two distinct
blobs under the names `a b.png` and `a+b.png`: the raw reference `a b.png`
and its `' '`→`'+'`-substituted variant — two filename variants of the same
logical reference, each matching an entry under the accepted empty prefix —
resolve to *different* blobs, refuting the claim that all variants map to the
same resolved blob. Second, the divergence persists even when exactly one
entry matches the reference under an accepted prefix: beside `Images/a b.png`
an unrelated entry `A+B.PNG` captures the raw reference (its `' '`→`'+'`
candidate hits at the empty prefix before `Images/` is probed) while the
percent-encoded variant `a%20b.png` resolves to `Images/a b.png` — so only
restricting to a single-entry archive removes the ambiguity. -/
theorem c2_counterexample :
    subSpaceToPlus "a b.png" = "a+b.png" ∧
    (extractFile [⟨"a b.png", false, "ONE", ""⟩, ⟨"a+b.png", false, "TWO", ""⟩]
        (buildIndex [⟨"a b.png", false, "ONE", ""⟩, ⟨"a+b.png", false, "TWO", ""⟩])
        "a b.png" MediaKind.images).map RFile.content = some "ONE" ∧
    (extractFile [⟨"a b.png", false, "ONE", ""⟩, ⟨"a+b.png", false, "TWO", ""⟩]
        (buildIndex [⟨"a b.png", false, "ONE", ""⟩, ⟨"a+b.png", false, "TWO", ""⟩])
        "a+b.png" MediaKind.images).map RFile.content = some "TWO" ∧
    ("ONE" : String) ≠ "TWO" ∧
    (⟨encFullL ("a b.png" : String).data⟩ : String) = "a%20b.png" ∧
    (extractFile [⟨"Images/a b.png", false, "ONE", ""⟩, ⟨"A+B.PNG", false, "TWO", ""⟩]
        (buildIndex [⟨"Images/a b.png", false, "ONE", ""⟩, ⟨"A+B.PNG", false, "TWO", ""⟩])
        "a b.png" MediaKind.images).map RFile.content = some "TWO" ∧
    (extractFile [⟨"Images/a b.png", false, "ONE", ""⟩, ⟨"A+B.PNG", false, "TWO", ""⟩]
        (buildIndex [⟨"Images/a b.png", false, "ONE", ""⟩, ⟨"A+B.PNG", false, "TWO", ""⟩])
        "a%20b.png" MediaKind.images).map RFile.content = some "ONE" := by
  refine ⟨by decide, by decide, by decide, by decide, by decide, by decide, by decide⟩

/-- C2 (amended): variant stability holds for an archive consisting of a
*single* file entry — when that entry's path is an accepted prefix followed by
a well-behaved reference, the raw, NFC, NFD, percent-decoded,
percent-encoded, and `+`↔` `-substituted variants of that reference all
resolve to the same blob, namely that entry's content. As soon as a second
entry is present the guarantee fails: with two matching entries and even with
a single matching entry beside an unrelated one, different variants can
resolve to different blobs (both shown in the counterexample), so the
single-entry restriction is as far as the code supports the claim. -/
theorem c2_variant_filenames_resolve_same (e : ZipEntry) (p r : String) (k : MediaKind)
    (he : e.isDir = false) (hpath : e.path = p ++ r) (hp : p ∈ prefixesFor k)
    (hr : SimpleRef r) :
    ∀ v ∈ [r, nfcStr r, nfdStr r, (decPercent r).getD r, (⟨encFullL r.data⟩ : String),
        subPlusToSpace r, subSpaceToPlus r],
      ∃ f, extractFile [e] (buildIndex [e]) v k = some f ∧ f.content = e.content := by
  have hraw := c2_case_raw e p r k he hpath hp hr
  obtain ⟨_, _, hnormR, _, hslashR, _⟩ := simpleRef_facts hr
  have hdec : (decPercent r).getD r = r := by
    rw [decPercent_simple hr.2.1]
    rfl
  have hbaseE : normalizeSearch (basenameOr e.path e.path) = r := by
    rw [hpath, basename_under_prefix hp hslashR hr.1, hnormR]
  intro v hv
  simp only [List.mem_cons, List.not_mem_nil, or_false] at hv
  rcases hv with rfl | rfl | rfl | rfl | rfl | rfl | rfl
  · exact hraw
  · exact hraw
  · exact hraw
  · rw [hdec]
    exact hraw
  · exact c2_case_enc e p r k he hpath hp hr
  · refine c2_case_base e he k (subPlusToSpace r)
      (simpleRef_map hr psChar (fun c hc => ⟨(simpleChar_sub hc).1, (simpleChar_sub hc).2.1⟩))
      (Or.inr (Or.inl ?_))
    rw [hbaseE]
  · refine c2_case_base e he k (subSpaceToPlus r)
      (simpleRef_map hr spChar
        (fun c hc => ⟨(simpleChar_sub hc).2.2.1, (simpleChar_sub hc).2.2.2.1⟩))
      (Or.inr (Or.inr ?_))
    rw [hbaseE]

/-- C2 witness: for the single-entry archive `Images/pic name.png`, the
`' '`→`'+'`-substituted variant `pic+name.png` of the reference
`pic name.png` resolves to the entry's blob. -/
theorem c2_variant_filenames_resolve_same_witness :
    (extractFile [⟨"Images/pic name.png", false, "IMG", ""⟩]
        (buildIndex [⟨"Images/pic name.png", false, "IMG", ""⟩])
        (subSpaceToPlus "pic name.png") MediaKind.images).map RFile.content =
      some "IMG" := by
  obtain ⟨f, hf, hc⟩ := c2_variant_filenames_resolve_same
    ⟨"Images/pic name.png", false, "IMG", ""⟩ "Images/" "pic name.png" MediaKind.images
    (by decide) (by decide) (by decide) (by simp only [SimpleRef]; decide)
    (subSpaceToPlus "pic name.png") (by simp)
  rw [hf, Option.map_some', hc]

end SIGame
